import Mathlib

/-!
Verification of the append-only log-structured key-value storage engine
(`src/engine.rs`, `src/types.rs`) against its natural-language specification.

The engine state is embedded shallowly: the backing file is its byte
contents (`List Nat`, each element a byte value), the in-memory
`HashMap<Vec<u8>, LogIndex>` is an association list mutated by
insert/remove operations with the same lookup semantics, and the fallible
Rust operations return a result carrying the `std::io::ErrorKind` the code
produces.  The `wincode` record codec is an external crate, so it is
modelled from the specification (section 4.1).  Compaction and the
auto-compaction threshold are described by the specification but absent
from the source, so they are likewise modelled from the specification.
-/

namespace KVStore

/-- A byte string: each element is one byte value (kept below 256 by every
producer in the model). -/
abbrev Bytes := List Nat

/-- Little-endian encoding of `n` into `w` bytes, as in
`u64::to_le_bytes` for `w = 8` (higher bits beyond the width are dropped,
matching the `as u64` cast semantics). -/
def toLEBytes : Nat → Nat → Bytes
  | 0, _ => []
  | w + 1, n => n % 256 :: toLEBytes w (n / 256)

/-- Little-endian decoding of a byte list, as in `u64::from_le_bytes`. -/
def fromLEBytes : Bytes → Nat
  | [] => 0
  | b :: bs => b + 256 * fromLEBytes bs

theorem length_toLEBytes (w n : Nat) : (toLEBytes w n).length = w := by
  induction w generalizing n with
  | zero => rfl
  | succ w ih => simp [toLEBytes, ih]

theorem mem_toLEBytes_lt (w n : Nat) : ∀ b ∈ toLEBytes w n, b < 256 := by
  induction w generalizing n with
  | zero => intro b hb; simp [toLEBytes] at hb
  | succ w ih =>
    intro b hb
    simp only [toLEBytes, List.mem_cons] at hb
    rcases hb with h | h
    · omega
    · exact ih _ _ h

theorem fromLEBytes_toLEBytes (w n : Nat) :
    fromLEBytes (toLEBytes w n) = n % 256 ^ w := by
  induction w generalizing n with
  | zero => simp [toLEBytes, fromLEBytes, Nat.mod_one]
  | succ w ih =>
    have hK : 0 < 256 ^ w := Nat.pos_pow_of_pos w (by omega)
    simp only [toLEBytes, fromLEBytes, ih]
    rw [Nat.pow_succ]
    have e1 : n = (n % 256 + 256 * (n / 256 % 256 ^ w)) +
        (256 ^ w * 256) * (n / 256 / 256 ^ w) := by
      conv_lhs => rw [← Nat.mod_add_div n 256, ← Nat.mod_add_div (n / 256) (256 ^ w)]
      ring
    have b1 : n % 256 < 256 := Nat.mod_lt _ (by omega)
    have b2 : n / 256 % 256 ^ w < 256 ^ w := Nat.mod_lt _ hK
    have c1 : 256 * (n / 256 % 256 ^ w + 1) ≤ 256 * 256 ^ w :=
      Nat.mul_le_mul_left _ b2
    have h1 : n % (256 ^ w * 256) = n % 256 + 256 * (n / 256 % 256 ^ w) := by
      conv_lhs => rw [e1]
      rw [Nat.add_mul_mod_self_left]
      exact Nat.mod_eq_of_lt (by omega)
    omega

theorem toLEBytes_fromLEBytes (bs : Bytes) (h : ∀ b ∈ bs, b < 256) :
    toLEBytes bs.length (fromLEBytes bs) = bs := by
  induction bs with
  | nil => rfl
  | cons b rest ih =>
    have hb : b < 256 := h b (by simp)
    simp only [List.length_cons, toLEBytes, fromLEBytes]
    have h1 : (b + 256 * fromLEBytes rest) % 256 = b := by omega
    have h2 : (b + 256 * fromLEBytes rest) / 256 = fromLEBytes rest := by omega
    rw [h1, h2, ih fun x hx => h x (by simp [hx])]

theorem fromLEBytes_lt (bs : Bytes) (h : ∀ b ∈ bs, b < 256) :
    fromLEBytes bs < 256 ^ bs.length := by
  induction bs with
  | nil => simp [fromLEBytes]
  | cons b rest ih =>
    have hb : b < 256 := h b (by simp)
    have hr := ih fun x hx => h x (by simp [hx])
    simp only [fromLEBytes, List.length_cons, Nat.pow_succ]
    omega

theorem pow256_eight : (256 : Nat) ^ 8 = 2 ^ 64 := by norm_num

theorem two_pow_64_int : ((2 : Int) ^ 64) = 18446744073709551616 := by norm_num

theorem two_pow_63_nat : ((2 : Nat) ^ 63) = 9223372036854775808 := by norm_num

theorem two_pow_64_nat : ((2 : Nat) ^ 64) = 18446744073709551616 := by norm_num

/-- The record stored in the data file (`src/types.rs`): a timestamp, a key
and an optional value.  `value = none` is a tombstone. -/
structure DataFileEntry where
  tstamp : Int
  key : Bytes
  value : Option Bytes
deriving DecidableEq, Repr

/-- An in-memory index entry (`src/types.rs`): byte offset of the payload
start and payload length. -/
structure LogIndex where
  pos : Nat
  len : Nat
deriving DecidableEq, Repr

/-- The `std::io::ErrorKind` values the engine code produces:
`UnexpectedEof` (short reads), `InvalidData` (the deserialize failure
mapping in `rebuild_index` and `get`), and `Other` (the serialize failure
mapping in `set` and `del`). -/
inductive IOErrorKind where
  | unexpectedEof
  | invalidData
  | other
deriving DecidableEq, Repr

/-- Mirror of `std::io::Result` carrying the error kind. -/
inductive IOResult (α : Type) where
  | ok (a : α)
  | err (e : IOErrorKind)
deriving DecidableEq, Repr

/-- Split off the first `n` bytes, failing when fewer remain (the shape of
every length-guarded field read in the decoder). -/
def splitBytes (n : Nat) (b : Bytes) : Option (Bytes × Bytes) :=
  if n ≤ b.length then some (b.take n, b.drop n) else none

theorem splitBytes_append (A B : Bytes) :
    splitBytes A.length (A ++ B) = some (A, B) := by
  simp [splitBytes]

theorem splitBytes_eq_some {n : Nat} {b x y : Bytes}
    (h : splitBytes n b = some (x, y)) :
    b = x ++ y ∧ x.length = n := by
  unfold splitBytes at h
  by_cases hn : n ≤ b.length
  · simp only [hn, if_true, Option.some.injEq, Prod.mk.injEq] at h
    obtain ⟨hx, hy⟩ := h
    subst hx; subst hy
    exact ⟨(List.take_append_drop n b).symm, List.length_take_of_le hn⟩
  · simp [hn] at h

/-- Interpretation of 8 little-endian bytes as a signed 64-bit integer
(the decoding of the `tstamp: i64` field). -/
def decodeI64 (bs : Bytes) : Int :=
  if fromLEBytes bs < 2 ^ 63 then (fromLEBytes bs : Int)
  else (fromLEBytes bs : Int) - 2 ^ 64

/-- Modelled from the spec (section 4.1): the `wincode` serialization of a
`DataFileEntry` — the `wincode` crate is an external dependency, not part
of this repository.  Field order: timestamp (8 bytes little-endian, two's
complement), key (8-byte little-endian length then the bytes), value
presence flag (one byte, 0 = absent, 1 = present) then for a present value
its 8-byte little-endian length and the bytes. -/
def encodeEntry (r : DataFileEntry) : Bytes :=
  toLEBytes 8 (r.tstamp % (2 ^ 64 : Int)).toNat ++ toLEBytes 8 r.key.length ++ r.key ++
    match r.value with
    | none => [0]
    | some v => 1 :: (toLEBytes 8 v.length ++ v)

/-- Modelled from the spec (section 4.1): the `wincode` deserialization of
a `DataFileEntry`, the exact inverse of `encodeEntry`; any input that is
not exactly one encoded record fails (the failure the engine maps to an
`InvalidData` error). -/
def decodeEntry (b : Bytes) : Option DataFileEntry :=
  match splitBytes 8 b with
  | none => none
  | some (tsb, r1) =>
    match splitBytes 8 r1 with
    | none => none
    | some (klb, r2) =>
      match splitBytes (fromLEBytes klb) r2 with
      | none => none
      | some (key, r3) =>
        match r3 with
        | 0 :: rest => if rest = [] then some ⟨decodeI64 tsb, key, none⟩ else none
        | 1 :: rest =>
          match splitBytes 8 rest with
          | none => none
          | some (vlb, r4) =>
            if r4.length = fromLEBytes vlb then some ⟨decodeI64 tsb, key, some r4⟩
            else none
        | _ => none

/-- The timestamp value that survives an encode/decode cycle: the two's
complement reinterpretation of the low 64 bits. -/
def normTs (t : Int) : Int :=
  if (t % (2 ^ 64 : Int)).toNat < 2 ^ 63 then ((t % (2 ^ 64 : Int)).toNat : Int)
  else ((t % (2 ^ 64 : Int)).toNat : Int) - 2 ^ 64

/-- An entry the engine can actually write: its encoding fits the 64-bit
length framing (always true of the Rust `usize` lengths). -/
def entryOk (r : DataFileEntry) : Prop :=
  (encodeEntry r).length < 2 ^ 64

instance (r : DataFileEntry) : Decidable (entryOk r) := by
  unfold entryOk; infer_instance

theorem length_encodeEntry (r : DataFileEntry) :
    (encodeEntry r).length =
      17 + r.key.length + (match r.value with | none => 0 | some v => 8 + v.length) := by
  cases hv : r.value with
  | none => simp [encodeEntry, hv, length_toLEBytes]; omega
  | some v => simp [encodeEntry, hv, length_toLEBytes]; omega

theorem entryOk_key_lt {r : DataFileEntry} (h : entryOk r) : r.key.length < 2 ^ 64 := by
  unfold entryOk at h
  rw [length_encodeEntry] at h
  cases r.value <;> simp at h <;> omega

theorem entryOk_value_lt {r : DataFileEntry} {v : Bytes} (h : entryOk r)
    (hv : r.value = some v) : v.length < 2 ^ 64 := by
  unfold entryOk at h
  rw [length_encodeEntry, hv] at h
  simp at h
  omega

theorem tstampMod_lt (t : Int) : (t % (2 ^ 64 : Int)).toNat < 2 ^ 64 := by
  have h1 : 0 ≤ t % (2 ^ 64 : Int) := Int.emod_nonneg t (by norm_num)
  have h2 : t % (2 ^ 64 : Int) < 2 ^ 64 := Int.emod_lt_of_pos t (by norm_num)
  rw [two_pow_64_int] at h2
  rw [two_pow_64_nat]
  omega

theorem decodeI64_encode_ts (t : Int) :
    decodeI64 (toLEBytes 8 (t % (2 ^ 64 : Int)).toNat) = normTs t := by
  unfold decodeI64 normTs
  rw [fromLEBytes_toLEBytes]
  rw [show (256 : Nat) ^ 8 = 2 ^ 64 from pow256_eight]
  rw [Nat.mod_eq_of_lt (tstampMod_lt t)]

theorem normTs_mod_eq (t : Int) :
    normTs t % (2 ^ 64 : Int) = t % (2 ^ 64 : Int) := by
  unfold normTs
  have h1 : 0 ≤ t % (2 ^ 64 : Int) := Int.emod_nonneg t (by norm_num)
  have h2 : t % (2 ^ 64 : Int) < 2 ^ 64 := Int.emod_lt_of_pos t (by norm_num)
  rw [two_pow_64_int] at h1 h2 ⊢
  rw [two_pow_63_nat]
  split
  · omega
  · omega

theorem splitBytes_append_of_length (n : Nat) (A B : Bytes) (h : A.length = n) :
    splitBytes n (A ++ B) = some (A, B) := by
  subst h
  exact splitBytes_append A B

theorem encodeEntry_none (r : DataFileEntry) (hv : r.value = none) :
    encodeEntry r = toLEBytes 8 (r.tstamp % (2 ^ 64 : Int)).toNat ++
      (toLEBytes 8 r.key.length ++ (r.key ++ [0])) := by
  simp [encodeEntry, hv, List.append_assoc]

theorem encodeEntry_some (r : DataFileEntry) (v : Bytes) (hv : r.value = some v) :
    encodeEntry r = toLEBytes 8 (r.tstamp % (2 ^ 64 : Int)).toNat ++
      (toLEBytes 8 r.key.length ++ (r.key ++ (1 :: (toLEBytes 8 v.length ++ v)))) := by
  simp [encodeEntry, hv, List.append_assoc]

theorem fromLE_toLE_8 (n : Nat) (h : n < 2 ^ 64) :
    fromLEBytes (toLEBytes 8 n) = n := by
  rw [fromLEBytes_toLEBytes, pow256_eight, Nat.mod_eq_of_lt h]

theorem decodeEntry_encodeEntry (r : DataFileEntry) (h : entryOk r) :
    decodeEntry (encodeEntry r) = some ⟨normTs r.tstamp, r.key, r.value⟩ := by
  have hk : r.key.length < 2 ^ 64 := entryOk_key_lt h
  cases hv : r.value with
  | none =>
    rw [encodeEntry_none r hv]
    unfold decodeEntry
    rw [splitBytes_append_of_length 8 _ _ (length_toLEBytes 8 _)]
    dsimp only
    rw [splitBytes_append_of_length 8 _ _ (length_toLEBytes 8 _)]
    dsimp only
    rw [fromLE_toLE_8 _ hk]
    rw [splitBytes_append_of_length _ _ _ rfl]
    dsimp only
    rw [decodeI64_encode_ts]
    simp
  | some v =>
    have hvlt : v.length < 2 ^ 64 := entryOk_value_lt h hv
    rw [encodeEntry_some r v hv]
    unfold decodeEntry
    rw [splitBytes_append_of_length 8 _ _ (length_toLEBytes 8 _)]
    dsimp only
    rw [splitBytes_append_of_length 8 _ _ (length_toLEBytes 8 _)]
    dsimp only
    rw [fromLE_toLE_8 _ hk]
    rw [splitBytes_append_of_length _ _ _ rfl]
    dsimp only
    rw [splitBytes_append_of_length 8 _ _ (length_toLEBytes 8 _)]
    dsimp only
    rw [fromLE_toLE_8 _ hvlt]
    rw [decodeI64_encode_ts]
    simp

theorem encodeEntry_normTs (r : DataFileEntry) :
    encodeEntry ⟨normTs r.tstamp, r.key, r.value⟩ = encodeEntry r := by
  unfold encodeEntry
  rw [normTs_mod_eq]

theorem toLE_decodeI64 (tsb : Bytes) (hlen : tsb.length = 8) (hv : ∀ x ∈ tsb, x < 256) :
    toLEBytes 8 ((decodeI64 tsb % (2 ^ 64 : Int)).toNat) = tsb := by
  have hn : fromLEBytes tsb < 2 ^ 64 := by
    have h0 := fromLEBytes_lt tsb hv
    rw [hlen, pow256_eight] at h0
    exact h0
  have key : ((decodeI64 tsb) % (2 ^ 64 : Int)).toNat = fromLEBytes tsb := by
    unfold decodeI64
    rw [two_pow_64_int, two_pow_63_nat]
    rw [two_pow_64_nat] at hn
    split <;> omega
  rw [key, ← hlen]
  exact toLEBytes_fromLEBytes tsb hv

theorem encodeEntry_decodeEntry {b : Bytes} (hb : ∀ x ∈ b, x < 256) {r : DataFileEntry}
    (h : decodeEntry b = some r) : encodeEntry r = b := by
  unfold decodeEntry at h
  cases hs1 : splitBytes 8 b with
  | none => rw [hs1] at h; simp at h
  | some p1 =>
    obtain ⟨tsb, r1⟩ := p1
    rw [hs1] at h
    obtain ⟨hb1, hl1⟩ := splitBytes_eq_some hs1
    dsimp only at h
    cases hs2 : splitBytes 8 r1 with
    | none => rw [hs2] at h; simp at h
    | some p2 =>
      obtain ⟨klb, r2⟩ := p2
      rw [hs2] at h
      obtain ⟨hb2, hl2⟩ := splitBytes_eq_some hs2
      dsimp only at h
      cases hs3 : splitBytes (fromLEBytes klb) r2 with
      | none => rw [hs3] at h; simp at h
      | some p3 =>
        obtain ⟨key, r3⟩ := p3
        rw [hs3] at h
        obtain ⟨hb3, hl3⟩ := splitBytes_eq_some hs3
        dsimp only at h
        subst hb3
        subst hb2
        subst hb1
        have hts : ∀ x ∈ tsb, x < 256 := fun x hx => hb x (by simp [hx])
        have hkl : ∀ x ∈ klb, x < 256 := fun x hx => hb x (by simp [hx])
        cases r3 with
        | nil => simp at h
        | cons x rest =>
          match x with
          | 0 =>
            dsimp only at h
            by_cases hrest : rest = []
            · rw [if_pos hrest] at h
              subst hrest
              injection h with h
              subst h
              have e1 : toLEBytes 8 (fromLEBytes klb) = klb := by
                rw [← hl2]; exact toLEBytes_fromLEBytes klb hkl
              rw [encodeEntry_none _ rfl]
              dsimp only
              rw [toLE_decodeI64 tsb hl1 hts, hl3, e1]
            · rw [if_neg hrest] at h
              exact absurd h (by simp)
          | 1 =>
            dsimp only at h
            cases hs4 : splitBytes 8 rest with
            | none => rw [hs4] at h; simp at h
            | some p4 =>
              obtain ⟨vlb, r4⟩ := p4
              rw [hs4] at h
              obtain ⟨hb4, hl4⟩ := splitBytes_eq_some hs4
              dsimp only at h
              subst hb4
              have hvl : ∀ x ∈ vlb, x < 256 := fun x hx => hb x (by simp [hx])
              by_cases hlen4 : r4.length = fromLEBytes vlb
              · rw [if_pos hlen4] at h
                injection h with h
                subst h
                have e1 : toLEBytes 8 (fromLEBytes klb) = klb := by
                  rw [← hl2]; exact toLEBytes_fromLEBytes klb hkl
                have e2 : toLEBytes 8 (fromLEBytes vlb) = vlb := by
                  rw [← hl4]; exact toLEBytes_fromLEBytes vlb hvl
                rw [encodeEntry_some _ r4 rfl]
                dsimp only
                rw [toLE_decodeI64 tsb hl1 hts, hl3, e1, hlen4, e2]
              · rw [if_neg hlen4] at h
                exact absurd h (by simp)
          | (n + 2) => simp at h

theorem normTs_eq_self {t : Int} (h1 : -(2 ^ 63) ≤ t) (h2 : t < 2 ^ 63) :
    normTs t = t := by
  unfold normTs
  have e63 : ((2 : Int) ^ 63) = 9223372036854775808 := by norm_num
  rw [e63] at h1 h2
  have hm1 : 0 ≤ t % (2 ^ 64 : Int) := Int.emod_nonneg t (by norm_num)
  have hm2 : t % (2 ^ 64 : Int) < 2 ^ 64 := Int.emod_lt_of_pos t (by norm_num)
  have hmod : t % (2 ^ 64 : Int) = t ∨ t % (2 ^ 64 : Int) = t + 2 ^ 64 := by
    rw [two_pow_64_int] at hm1 hm2 ⊢
    have := Int.emod_emod_of_dvd t (dvd_refl (18446744073709551616 : Int))
    omega
  rw [two_pow_63_nat, two_pow_64_int] at *
  rcases hmod with hm | hm <;> rw [hm] <;> split <;> omega

/-- The in-memory index: the `HashMap<Vec<u8>, LogIndex>` of the engine,
embedded as an association list with `HashMap` lookup/insert/remove
semantics. -/
abbrev Index := List (Bytes × LogIndex)

def idxFind (ix : Index) (k : Bytes) : Option LogIndex :=
  match ix with
  | [] => none
  | (k2, li) :: rest => if k2 = k then some li else idxFind rest k

def idxInsert (ix : Index) (k : Bytes) (li : LogIndex) : Index :=
  match ix with
  | [] => [(k, li)]
  | (k2, li2) :: rest => if k2 = k then (k, li) :: rest else (k2, li2) :: idxInsert rest k li

def idxRemove (ix : Index) (k : Bytes) : Index :=
  match ix with
  | [] => []
  | (k2, li2) :: rest => if k2 = k then idxRemove rest k else (k2, li2) :: idxRemove rest k

/-- The storage engine (`src/engine.rs`): the byte contents of the data
file and the in-memory index.  The file cursor is not represented because
every operation seeks before using it. -/
structure Engine where
  file : Bytes
  index : Index
deriving DecidableEq, Repr

/-- `Engine::set` (src/engine.rs lines 71-104), success path: encode the
record with a live value, append the 8-byte little-endian length prefix
and the payload at end of file, then insert the payload position and
length into the index.  The wall-clock timestamp is passed explicitly. -/
def Engine.set (e : Engine) (tstamp : Int) (key value : Bytes) : Engine :=
  let data := encodeEntry ⟨tstamp, key, some value⟩
  { file := e.file ++ toLEBytes 8 data.length ++ data
    index := idxInsert e.index key ⟨e.file.length + 8, data.length⟩ }

/-- `Engine::del` (src/engine.rs lines 106-133), success path: append a
tombstone record (value absent) and remove the key from the index. -/
def Engine.del (e : Engine) (tstamp : Int) (key : Bytes) : Engine :=
  let data := encodeEntry ⟨tstamp, key, none⟩
  { file := e.file ++ toLEBytes 8 data.length ++ data
    index := idxRemove e.index key }

/-- The positioned read `get` performs: `len` bytes at offset `pos`. -/
def slice (f : Bytes) (li : LogIndex) : Bytes :=
  (f.drop li.pos).take li.len

/-- `Engine::get` (src/engine.rs lines 135-150): look the key up in the
index; absent keys return `ok none`.  A present entry is read back with a
positioned read of exactly `len` bytes at `pos` (`read_exact` fails with
`UnexpectedEof` when fewer bytes remain) and decoded (failure maps to
`InvalidData`). -/
def Engine.get (e : Engine) (k : Bytes) : IOResult (Option Bytes) :=
  match idxFind e.index k with
  | none => .ok none
  | some li =>
    if e.file.length < li.pos + li.len then .err .unexpectedEof
    else
      match decodeEntry (slice e.file li) with
      | none => .err .invalidData
      | some entry => .ok entry.value

/-- The replay loop of `Engine::rebuild_index` (src/engine.rs lines
32-69), reading frames sequentially.  `rest` is the unread tail of the
file and `pos` the absolute offset of `rest` in it.  Reading the 8-byte
length prefix fails with `UnexpectedEof` exactly when fewer than 8 bytes
remain, which the loop treats as the clean end of the log; a payload
shorter than the prefix declares propagates the `UnexpectedEof` error; a
payload that does not decode yields `InvalidData`; otherwise a live value
overwrites the index entry for the key and a tombstone removes it.  The
structural `fuel` argument is only a termination device: every iteration
consumes at least 8 bytes, and every caller passes at least `rest.length`
fuel, so the fuel-exhaustion branch is unreachable. -/
def rebuildGo (fuel : Nat) (rest : Bytes) (pos : Nat) (ix : Index) :
    IOResult Index :=
  match fuel with
  | 0 => .ok ix
  | fuel + 1 =>
    if rest.length < 8 then .ok ix
    else if (rest.drop 8).length < fromLEBytes (rest.take 8) then .err .unexpectedEof
    else
      match decodeEntry ((rest.drop 8).take (fromLEBytes (rest.take 8))) with
      | none => .err .invalidData
      | some entry =>
        rebuildGo fuel ((rest.drop 8).drop (fromLEBytes (rest.take 8)))
          (pos + 8 + fromLEBytes (rest.take 8))
          (match entry.value with
           | some _ => idxInsert ix entry.key ⟨pos + 8, fromLEBytes (rest.take 8)⟩
           | none => idxRemove ix entry.key)

/-- `Engine::load` (src/engine.rs lines 15-30): open (or create, giving
empty contents) the file and rebuild the index by replaying it from the
start. -/
def Engine.load (file : Bytes) : IOResult Engine :=
  match rebuildGo file.length file 0 [] with
  | .err e => .err e
  | .ok ix => .ok ⟨file, ix⟩

/-- Outcome oracle for the fallible steps of one `Engine::set` call, in
the order the code performs them: `wincode::serialize`, `seek(End)`,
`write_all` of the length prefix, `stream_position`, `write_all` of the
payload, `flush`.  `junk` is whatever partial data a failed write may
have left in the file. -/
structure IOEnv where
  encodeOk : Bool
  seekOk : Bool
  writeLenOk : Bool
  posOk : Bool
  writeDataOk : Bool
  flushOk : Bool
  junk : Bytes
deriving DecidableEq, Repr

/-- `Engine::set` (src/engine.rs lines 71-104) with every fallible step
made explicit: each `?` in the code exits with the error before the index
insertion on line 95, so the index is only modified after all fallible
steps succeed.  The file reflects whatever was durably appended before
the failing step. -/
def Engine.setRun (e : Engine) (tstamp : Int) (key value : Bytes) (env : IOEnv) :
    Engine × Option IOErrorKind :=
  if env.encodeOk = false then (e, some .other)
  else
    let data := encodeEntry ⟨tstamp, key, some value⟩
    if env.seekOk = false then (e, some .other)
    else if env.writeLenOk = false then ({ e with file := e.file ++ env.junk }, some .other)
    else if env.posOk = false then
      ({ e with file := e.file ++ toLEBytes 8 data.length }, some .other)
    else if env.writeDataOk = false then
      ({ e with file := e.file ++ toLEBytes 8 data.length ++ env.junk }, some .other)
    else if env.flushOk = false then
      ({ e with file := e.file ++ toLEBytes 8 data.length ++ data }, some .other)
    else
      ({ file := e.file ++ toLEBytes 8 data.length ++ data
         index := idxInsert e.index key ⟨e.file.length + 8, data.length⟩ }, none)

/-- Modelled from the spec (section 4.4): `compact()` is described by the
specification but absent from the source.  It takes a snapshot of the
index, and for every entry reads the corresponding payload out of the
current log file and re-appends it, unchanged and with its length-prefix
framing, into a brand-new file, recording each record's new offset; the
new file then replaces the old one and the index is wholesale replaced
with the newly computed offsets.  `compactStep` handles one snapshot
entry: read the payload of `kv` out of the old file `f`, append its frame
to the new file and record the new offset. -/
def compactStep (f : Bytes) (acc : Bytes × Index) (kv : Bytes × LogIndex) :
    Bytes × Index :=
  (acc.1 ++ toLEBytes 8 kv.2.len ++ (f.drop kv.2.pos).take kv.2.len,
   idxInsert acc.2 kv.1 ⟨acc.1.length + 8, kv.2.len⟩)

/-- Modelled from the spec (section 4.4): `compact()` over the whole
index snapshot, starting from an empty new file. -/
def Engine.compact (e : Engine) : Engine :=
  ⟨(e.index.foldl (compactStep e.file) ([], [])).1,
   (e.index.foldl (compactStep e.file) ([], [])).2⟩

/-- Modelled from the spec (sections 4.4 and 6): an engine opened with a
compaction threshold, tracking cumulative appended bytes since open or
since the last compaction.  This configuration is described by the
specification but absent from the source (`Engine::load` takes only a
path and `Engine::set` never compacts). -/
structure EngineT where
  eng : Engine
  threshold : Nat
  since : Nat
deriving DecidableEq, Repr

/-- Modelled from the spec (section 4.4): `set` with auto-compaction —
after the update, if cumulative appended bytes since the last compaction
(or since open) reach or exceed the threshold, a compaction runs
synchronously before the call returns. -/
def EngineT.set (s : EngineT) (tstamp : Int) (key value : Bytes) : EngineT :=
  let appended := 8 + (encodeEntry ⟨tstamp, key, some value⟩).length
  let e2 := s.eng.set tstamp key value
  if s.threshold ≤ s.since + appended then ⟨e2.compact, s.threshold, 0⟩
  else ⟨e2, s.threshold, s.since + appended⟩

/-- Modelled from the spec (section 4.4): `delete` does not count toward
the compaction threshold. -/
def EngineT.del (s : EngineT) (tstamp : Int) (key : Bytes) : EngineT :=
  ⟨s.eng.del tstamp key, s.threshold, s.since⟩

def EngineT.get (s : EngineT) (k : Bytes) : IOResult (Option Bytes) :=
  s.eng.get k

/-- A mutation issued against the engine. -/
inductive Op where
  | set (tstamp : Int) (key value : Bytes)
  | del (tstamp : Int) (key : Bytes)
deriving DecidableEq, Repr

def applyOp (e : Engine) : Op → Engine
  | .set t k v => e.set t k v
  | .del t k => e.del t k

def applyOps (e : Engine) (ops : List Op) : Engine := ops.foldl applyOp e

def Op.entry : Op → DataFileEntry
  | .set t k v => ⟨t, k, some v⟩
  | .del t k => ⟨t, k, none⟩

def entriesOf (ops : List Op) : List DataFileEntry := ops.map Op.entry

def opOk (op : Op) : Prop := entryOk op.entry

instance (op : Op) : Decidable (opOk op) := by
  unfold opOk; infer_instance

/-- The length-prefixed frame a record occupies in the file. -/
def encFrame (en : DataFileEntry) : Bytes :=
  toLEBytes 8 (encodeEntry en).length ++ encodeEntry en

/-- The file contents produced by appending the given records in order. -/
def logOf : List DataFileEntry → Bytes
  | [] => []
  | en :: rest => encFrame en ++ logOf rest

/-- One replay step at frame offset `pos`: a live value overwrites the
index entry, a tombstone removes it (spec section 4.4, recovery-by-replay). -/
def replayStep (pos : Nat) (ix : Index) (en : DataFileEntry) : Index :=
  match en.value with
  | some _ => idxInsert ix en.key ⟨pos + 8, (encodeEntry en).length⟩
  | none => idxRemove ix en.key

def replayGo (pos : Nat) (ix : Index) : List DataFileEntry → Index
  | [] => ix
  | en :: rest => replayGo (pos + (encFrame en).length) (replayStep pos ix en) rest

/-- The engine state determined by a record list: the concatenated log
and the index obtained by replaying it. -/
def engineOf (E : List DataFileEntry) : Engine :=
  ⟨logOf E, replayGo 0 [] E⟩

/-- The logical contents of the store after the given records, by
last-record-per-key-wins with tombstones removing (spec section 3). -/
def logical (k : Bytes) (E : List DataFileEntry) : Option Bytes :=
  E.foldl (fun acc en => if en.key = k then en.value else acc) none

theorem idxFind_insert_self (ix : Index) (k : Bytes) (li : LogIndex) :
    idxFind (idxInsert ix k li) k = some li := by
  induction ix with
  | nil => simp [idxInsert, idxFind]
  | cons p rest ih =>
    obtain ⟨k2, li2⟩ := p
    by_cases hk : k2 = k
    · simp [idxInsert, idxFind, hk]
    · simp [idxInsert, idxFind, hk, ih]

theorem idxFind_insert_ne (ix : Index) (k k2 : Bytes) (li : LogIndex) (h : k ≠ k2) :
    idxFind (idxInsert ix k li) k2 = idxFind ix k2 := by
  induction ix with
  | nil => simp [idxInsert, idxFind, h]
  | cons p rest ih =>
    obtain ⟨k3, li3⟩ := p
    by_cases hk : k3 = k
    · subst hk
      simp [idxInsert, idxFind, h]
    · simp only [idxInsert, if_neg hk, idxFind]
      by_cases hk2 : k3 = k2
      · simp [hk2]
      · simp [hk2, ih]

theorem idxFind_remove_self (ix : Index) (k : Bytes) :
    idxFind (idxRemove ix k) k = none := by
  induction ix with
  | nil => simp [idxRemove, idxFind]
  | cons p rest ih =>
    obtain ⟨k2, li2⟩ := p
    by_cases hk : k2 = k
    · simp [idxRemove, hk, ih]
    · simp [idxRemove, hk, idxFind, ih]

theorem idxFind_remove_ne (ix : Index) (k k2 : Bytes) (h : k ≠ k2) :
    idxFind (idxRemove ix k) k2 = idxFind ix k2 := by
  induction ix with
  | nil => simp [idxRemove]
  | cons p rest ih =>
    obtain ⟨k3, li3⟩ := p
    by_cases hk : k3 = k
    · subst hk
      simp [idxRemove, idxFind, h, ih]
    · simp only [idxRemove, if_neg hk, idxFind]
      by_cases hk2 : k3 = k2
      · simp [hk2]
      · simp [hk2, ih]

theorem idxRemove_of_find_none (ix : Index) (k : Bytes)
    (h : idxFind ix k = none) : idxRemove ix k = ix := by
  induction ix with
  | nil => rfl
  | cons p rest ih =>
    obtain ⟨k2, li2⟩ := p
    simp only [idxFind] at h
    by_cases hk : k2 = k
    · simp [hk] at h
    · simp only [if_neg hk] at h
      simp [idxRemove, hk, ih h]

theorem idxFind_replayStep_ne (pos : Nat) (ix : Index) (en : DataFileEntry)
    (k : Bytes) (h : en.key ≠ k) :
    idxFind (replayStep pos ix en) k = idxFind ix k := by
  unfold replayStep
  cases en.value with
  | none => exact idxFind_remove_ne ix en.key k h
  | some v => exact idxFind_insert_ne ix en.key k _ h

theorem logOf_append (A B : List DataFileEntry) :
    logOf (A ++ B) = logOf A ++ logOf B := by
  induction A with
  | nil => simp [logOf]
  | cons en rest ih => simp [logOf, ih]

theorem length_encFrame (en : DataFileEntry) :
    (encFrame en).length = 8 + (encodeEntry en).length := by
  simp [encFrame, length_toLEBytes]

theorem replayGo_append (A B : List DataFileEntry) (pos : Nat) (ix : Index) :
    replayGo pos ix (A ++ B) = replayGo (pos + (logOf A).length) (replayGo pos ix A) B := by
  induction A generalizing pos ix with
  | nil => simp [replayGo, logOf]
  | cons en rest ih =>
    simp only [List.cons_append, replayGo, logOf, List.length_append, List.append_eq]
    rw [ih, Nat.add_assoc]

theorem logical_append (k : Bytes) (A : List DataFileEntry) (en : DataFileEntry) :
    logical k (A ++ [en]) = if en.key = k then en.value else logical k A := by
  unfold logical
  rw [List.foldl_append]
  rfl

theorem rebuildGo_fuel_irrel (fuel1 : Nat) :
    ∀ (fuel2 : Nat) (rest : Bytes) (pos : Nat) (ix : Index),
      rest.length ≤ fuel1 → rest.length ≤ fuel2 →
      rebuildGo fuel1 rest pos ix = rebuildGo fuel2 rest pos ix := by
  induction fuel1 with
  | zero =>
    intro fuel2 rest pos ix h1 h2
    cases fuel2 with
    | zero => rfl
    | succ f2 =>
      have h8 : rest.length < 8 := by omega
      simp [rebuildGo, h8]
  | succ f1 ih =>
    intro fuel2 rest pos ix h1 h2
    cases fuel2 with
    | zero =>
      have h8 : rest.length < 8 := by omega
      simp [rebuildGo, h8]
    | succ f2 =>
      simp only [rebuildGo]
      by_cases h8 : rest.length < 8
      · rw [if_pos h8, if_pos h8]
      · rw [if_neg h8, if_neg h8]
        by_cases hp : (rest.drop 8).length < fromLEBytes (rest.take 8)
        · rw [if_pos hp, if_pos hp]
        · rw [if_neg hp, if_neg hp]
          cases hdec : decodeEntry ((rest.drop 8).take (fromLEBytes (rest.take 8))) with
          | none => rfl
          | some entry =>
            dsimp only
            apply ih
            · simp only [List.length_drop] at hp ⊢
              omega
            · simp only [List.length_drop] at hp ⊢
              omega

theorem rebuildGo_logOf (E : List DataFileEntry) :
    ∀ (rest : Bytes) (pos : Nat) (ix : Index) (fuel : Nat),
      (∀ en ∈ E, entryOk en) → (logOf E ++ rest).length ≤ fuel →
      rebuildGo fuel (logOf E ++ rest) pos ix =
        rebuildGo (fuel - (logOf E).length) rest (pos + (logOf E).length)
          (replayGo pos ix E) := by
  induction E with
  | nil =>
    intro rest pos ix fuel hok hfuel
    simp [logOf, replayGo]
  | cons en E ih =>
    intro rest pos ix fuel hok hfuel
    have hen : entryOk en := hok en (by simp)
    have henk : (encodeEntry en).length < 2 ^ 64 := hen
    simp only [logOf, List.append_assoc, replayGo, List.length_append,
      length_encFrame] at hfuel ⊢
    have hlenf : (encFrame en ++ (logOf E ++ rest)).length =
        8 + (encodeEntry en).length + ((logOf E).length + rest.length) := by
      simp [length_encFrame]
    rcases Nat.exists_eq_add_of_le (show 1 ≤ fuel by omega) with ⟨f, hf⟩
    subst hf
    rw [Nat.add_comm 1 f]
    have hshape : encFrame en ++ (logOf E ++ rest) =
        toLEBytes 8 (encodeEntry en).length ++ (encodeEntry en ++ (logOf E ++ rest)) := by
      unfold encFrame
      rw [List.append_assoc]
    rw [hshape]
    simp only [rebuildGo]
    have h8 : ¬(toLEBytes 8 (encodeEntry en).length ++
        (encodeEntry en ++ (logOf E ++ rest))).length < 8 := by
      simp [length_toLEBytes]
    rw [if_neg h8]
    have htake8 := List.take_left (toLEBytes 8 (encodeEntry en).length)
      (encodeEntry en ++ (logOf E ++ rest))
    have hdrop8 := List.drop_left (toLEBytes 8 (encodeEntry en).length)
      (encodeEntry en ++ (logOf E ++ rest))
    rw [length_toLEBytes] at htake8 hdrop8
    rw [htake8, hdrop8, fromLE_toLE_8 _ henk]
    have hplen : ¬(encodeEntry en ++ (logOf E ++ rest)).length < (encodeEntry en).length := by
      simp
    rw [if_neg hplen]
    rw [List.take_left (encodeEntry en) (logOf E ++ rest),
      List.drop_left (encodeEntry en) (logOf E ++ rest),
      decodeEntry_encodeEntry en hen]
    dsimp only
    have hstep : (match (en.value : Option Bytes) with
        | some _ => idxInsert ix en.key ⟨pos + 8, (encodeEntry en).length⟩
        | none => idxRemove ix en.key) = replayStep pos ix en := by
      unfold replayStep
      rfl
    rw [hstep]
    have hrem : (logOf E ++ rest).length ≤ f := by
      simp only [List.length_append]
      omega
    rw [ih rest (pos + 8 + (encodeEntry en).length) (replayStep pos ix en) f
      (fun x hx => hok x (by simp [hx])) hrem]
    have e1 : pos + (8 + (encodeEntry en).length) = pos + 8 + (encodeEntry en).length := by
      omega
    have e2 : pos + (8 + (encodeEntry en).length + (logOf E).length) =
        pos + 8 + (encodeEntry en).length + (logOf E).length := by
      omega
    rw [e1, e2]
    apply rebuildGo_fuel_irrel
    · simp only [List.length_append] at hrem
      omega
    · omega

theorem rebuildGo_small (fuel : Nat) (rest : Bytes) (pos : Nat) (ix : Index)
    (h : rest.length < 8) : rebuildGo fuel rest pos ix = .ok ix := by
  cases fuel with
  | zero => rfl
  | succ f => simp [rebuildGo, h]

theorem load_logOf_junk (E : List DataFileEntry) (junk : Bytes)
    (hok : ∀ en ∈ E, entryOk en) (hj : junk.length < 8) :
    Engine.load (logOf E ++ junk) = .ok ⟨logOf E ++ junk, replayGo 0 [] E⟩ := by
  unfold Engine.load
  rw [rebuildGo_logOf E junk 0 [] (logOf E ++ junk).length hok (le_refl _)]
  rw [rebuildGo_small _ _ _ _ hj]

theorem load_logOf (E : List DataFileEntry) (hok : ∀ en ∈ E, entryOk en) :
    Engine.load (logOf E) = .ok (engineOf E) := by
  have h := load_logOf_junk E [] hok (by simp)
  simpa [engineOf] using h

theorem slice_append (A B : Bytes) (li : LogIndex) (h : li.pos + li.len ≤ A.length) :
    slice (A ++ B) li = slice A li := by
  unfold slice
  rw [List.drop_append_of_le_length (by omega)]
  rw [List.take_append_of_le_length (by simp only [List.length_drop]; omega)]

theorem slice_last_frame (A : Bytes) (en : DataFileEntry) :
    slice (A ++ encFrame en) ⟨A.length + 8, (encodeEntry en).length⟩ =
      encodeEntry en := by
  unfold slice encFrame
  dsimp only
  have hshape : A ++ (toLEBytes 8 (encodeEntry en).length ++ encodeEntry en) =
      (A ++ toLEBytes 8 (encodeEntry en).length) ++ encodeEntry en := by
    rw [List.append_assoc]
  rw [hshape]
  have hlen : (A ++ toLEBytes 8 (encodeEntry en).length).length = A.length + 8 := by
    simp [length_toLEBytes]
  rw [← hlen, List.drop_left, List.take_length]

/-- The central index invariant after replaying a well-formed log: an
absent key has no live latest record, and a present key points at the
exact encoded bytes of its latest record, which carries a live value. -/
theorem replay_index_spec :
    ∀ (E : List DataFileEntry), (∀ en ∈ E, entryOk en) → ∀ (k : Bytes),
      (idxFind (replayGo 0 [] E) k = none → logical k E = none) ∧
      (∀ li, idxFind (replayGo 0 [] E) k = some li →
        li.pos + li.len ≤ (logOf E).length ∧
        ∃ en, decodeEntry (slice (logOf E) li) = some en ∧
          encodeEntry en = slice (logOf E) li ∧
          en.key = k ∧ en.value = logical k E ∧
          (∃ v, en.value = some v) ∧
          li.len = (encodeEntry en).length ∧ entryOk en) := by
  intro E
  induction E using List.reverseRecOn with
  | nil =>
    intro _ k
    refine ⟨fun _ => rfl, fun li h => ?_⟩
    simp [replayGo, idxFind] at h
  | append_singleton E en ih =>
    intro hok k
    have hokE : ∀ x ∈ E, entryOk x := fun x hx => hok x (by simp [hx])
    have hen : entryOk en := hok en (by simp)
    have hidx : replayGo 0 [] (E ++ [en]) =
        replayStep (logOf E).length (replayGo 0 [] E) en := by
      rw [replayGo_append]
      simp [replayGo]
    have hlog : logOf (E ++ [en]) = logOf E ++ encFrame en := by
      rw [logOf_append]
      simp [logOf]
    by_cases hkey : en.key = k
    · cases hv : en.value with
      | none =>
        have hfind : idxFind (replayGo 0 [] (E ++ [en])) k = none := by
          rw [hidx]
          unfold replayStep
          rw [hv, hkey]
          exact idxFind_remove_self _ k
        refine ⟨fun _ => ?_, fun li h => ?_⟩
        · rw [logical_append, if_pos hkey, hv]
        · rw [hfind] at h
          exact absurd h (by simp)
      | some v =>
        have hfind : idxFind (replayGo 0 [] (E ++ [en])) k =
            some ⟨(logOf E).length + 8, (encodeEntry en).length⟩ := by
          rw [hidx]
          unfold replayStep
          rw [hv, hkey]
          exact idxFind_insert_self _ k _
        refine ⟨fun h => ?_, fun li h => ?_⟩
        · rw [hfind] at h
          exact absurd h (by simp)
        · rw [hfind] at h
          injection h with h
          subst h
          constructor
          · rw [hlog]
            simp only [List.length_append, length_encFrame]
            omega
          · refine ⟨⟨normTs en.tstamp, en.key, en.value⟩, ?_, ?_, ?_, ?_, ?_, ?_, ?_⟩
            · rw [hlog]
              rw [slice_last_frame]
              exact decodeEntry_encodeEntry en hen
            · rw [hlog]
              rw [slice_last_frame]
              exact encodeEntry_normTs en
            · exact hkey
            · rw [logical_append, if_pos hkey]
            · exact ⟨v, by simp [hv]⟩
            · dsimp only
              rw [encodeEntry_normTs]
            · unfold entryOk
              rw [encodeEntry_normTs]
              exact hen
    · have hfind : idxFind (replayGo 0 [] (E ++ [en])) k =
          idxFind (replayGo 0 [] E) k := by
        rw [hidx]
        exact idxFind_replayStep_ne _ _ en k hkey
      have hlogic : logical k (E ++ [en]) = logical k E := by
        rw [logical_append, if_neg hkey]
      refine ⟨fun h => ?_, fun li h => ?_⟩
      · rw [hlogic]
        exact (ih hokE k).1 (hfind ▸ h)
      · rw [hfind] at h
        obtain ⟨hb, en2, hdec, henc, hk2, hval, hlive, hlen, hok2⟩ := (ih hokE k).2 li h
        have hsl : slice (logOf (E ++ [en])) li = slice (logOf E) li := by
          rw [hlog]
          exact slice_append _ _ li hb
        refine ⟨?_, en2, ?_, ?_, hk2, ?_, hlive, hlen, hok2⟩
        · rw [hlog]
          simp only [List.length_append]
          omega
        · rw [hsl]
          exact hdec
        · rw [hsl]
          exact henc
        · rw [hlogic]
          exact hval

/-- On a well-formed log, `get` returns exactly the logical
last-record-per-key-wins contents, with no error. -/
theorem get_engineOf (E : List DataFileEntry) (hok : ∀ en ∈ E, entryOk en)
    (k : Bytes) : (engineOf E).get k = .ok (logical k E) := by
  have h := replay_index_spec E hok k
  unfold Engine.get engineOf
  dsimp only
  cases hfind : idxFind (replayGo 0 [] E) k with
  | none =>
    rw [(h.1 hfind)]
  | some li =>
    obtain ⟨hb, en, hdec, henc, hkey, hval, hlive, hlen, hok2⟩ := h.2 li hfind
    dsimp only
    rw [if_neg (by omega), hdec]
    dsimp only
    rw [hval]

theorem set_engineOf (E : List DataFileEntry) (t : Int) (k v : Bytes) :
    (engineOf E).set t k v = engineOf (E ++ [⟨t, k, some v⟩]) := by
  unfold Engine.set engineOf
  rw [logOf_append, replayGo_append]
  simp only [logOf, replayGo, replayStep, List.append_nil, Nat.zero_add,
    length_encFrame, encFrame, List.append_assoc]

theorem del_engineOf (E : List DataFileEntry) (t : Int) (k : Bytes) :
    (engineOf E).del t k = engineOf (E ++ [⟨t, k, none⟩]) := by
  unfold Engine.del engineOf
  rw [logOf_append, replayGo_append]
  simp only [logOf, replayGo, replayStep, List.append_nil, Nat.zero_add,
    length_encFrame, encFrame, List.append_assoc]

theorem applyOps_engineOf (ops : List Op) :
    ∀ (E : List DataFileEntry),
      applyOps (engineOf E) ops = engineOf (E ++ entriesOf ops) := by
  induction ops with
  | nil =>
    intro E
    simp [applyOps, entriesOf]
  | cons op ops ih =>
    intro E
    have hstep : applyOp (engineOf E) op = engineOf (E ++ [op.entry]) := by
      cases op with
      | set t k v => exact set_engineOf E t k v
      | del t k => exact del_engineOf E t k
    calc applyOps (engineOf E) (op :: ops)
        = applyOps (applyOp (engineOf E) op) ops := rfl
      _ = applyOps (engineOf (E ++ [op.entry])) ops := by rw [hstep]
      _ = engineOf ((E ++ [op.entry]) ++ entriesOf ops) := ih _
      _ = engineOf (E ++ entriesOf (op :: ops)) := by
          rw [List.append_assoc]
          rfl

theorem engineOf_nil : engineOf [] = ⟨[], []⟩ := rfl

/-- Every engine state reachable from a freshly created file is the
engine of its own entry list. -/
theorem applyOps_empty (ops : List Op) :
    applyOps ⟨[], []⟩ ops = engineOf (entriesOf ops) := by
  have h := applyOps_engineOf ops []
  simpa [engineOf_nil] using h

theorem set_file (e : Engine) (t : Int) (k v : Bytes) :
    (e.set t k v).file = e.file ++ encFrame ⟨t, k, some v⟩ := by
  simp [Engine.set, encFrame, List.append_assoc]

theorem set_index (e : Engine) (t : Int) (k v : Bytes) :
    (e.set t k v).index =
      idxInsert e.index k ⟨e.file.length + 8, (encodeEntry ⟨t, k, some v⟩).length⟩ := by
  simp [Engine.set]

theorem del_file (e : Engine) (t : Int) (k : Bytes) :
    (e.del t k).file = e.file ++ encFrame ⟨t, k, none⟩ := by
  simp [Engine.del, encFrame, List.append_assoc]

theorem del_index (e : Engine) (t : Int) (k : Bytes) :
    (e.del t k).index = idxRemove e.index k := by
  simp [Engine.del]

/-- Reading a key straight back after a successful `set` on any engine
state returns the just-written value. -/
theorem get_after_set (e : Engine) (t : Int) (k v : Bytes)
    (h : entryOk ⟨t, k, some v⟩) : (e.set t k v).get k = .ok (some v) := by
  unfold Engine.get
  rw [set_index, idxFind_insert_self]
  dsimp only
  rw [set_file]
  have hcond : ¬(e.file ++ encFrame ⟨t, k, some v⟩).length <
      e.file.length + 8 + (encodeEntry ⟨t, k, some v⟩).length := by
    simp only [List.length_append, length_encFrame]
    omega
  rw [if_neg hcond]
  rw [slice_last_frame e.file ⟨t, k, some v⟩]
  rw [decodeEntry_encodeEntry _ h]

/-- Reading a key straight back after a `del` on any engine state
returns "not found" as a normal result. -/
theorem get_after_del (e : Engine) (t : Int) (k : Bytes) :
    (e.del t k).get k = .ok none := by
  unfold Engine.get
  rw [del_index, idxFind_remove_self]

def idxKeys (ix : Index) : List Bytes := ix.map Prod.fst

/-- Total framed bytes the index accounts for: one 8-byte prefix plus the
payload length per entry. -/
def idxSize (ix : Index) : Nat := (ix.map (fun kv => 8 + kv.2.len)).sum

theorem idxFind_eq_none_iff (ix : Index) (k : Bytes) :
    idxFind ix k = none ↔ k ∉ idxKeys ix := by
  induction ix with
  | nil => simp [idxFind, idxKeys]
  | cons p rest ih =>
    obtain ⟨k2, li2⟩ := p
    by_cases hk : k2 = k
    · subst hk
      simp [idxFind, idxKeys]
    · simp only [idxFind, if_neg hk, idxKeys, List.map_cons, List.mem_cons, not_or]
      rw [ih]
      unfold idxKeys
      constructor
      · intro h2
        exact ⟨fun he => hk he.symm, h2⟩
      · intro h2
        exact h2.2

theorem mem_of_idxFind (ix : Index) (k : Bytes) (li : LogIndex)
    (h : idxFind ix k = some li) : (k, li) ∈ ix := by
  induction ix with
  | nil => simp [idxFind] at h
  | cons p rest ih =>
    obtain ⟨k2, li2⟩ := p
    simp only [idxFind] at h
    by_cases hk : k2 = k
    · rw [if_pos hk] at h
      injection h with h
      subst hk
      subst h
      simp
    · rw [if_neg hk] at h
      simp [ih h]

theorem idxFind_of_mem (ix : Index) (hnd : (idxKeys ix).Nodup)
    (kv : Bytes × LogIndex) (h : kv ∈ ix) : idxFind ix kv.1 = some kv.2 := by
  induction ix with
  | nil => simp at h
  | cons p rest ih =>
    obtain ⟨k2, li2⟩ := p
    simp only [idxKeys, List.map_cons, List.nodup_cons] at hnd
    rcases List.mem_cons.mp h with h | h
    · subst h
      simp [idxFind]
    · have hne : k2 ≠ kv.1 := by
        intro he
        exact hnd.1 (he ▸ (List.mem_map.mpr ⟨kv, h, rfl⟩))
      simp only [idxFind, if_neg hne]
      exact ih hnd.2 h

theorem mem_idxKeys_insert (ix : Index) (k : Bytes) (li : LogIndex) (k2 : Bytes) :
    k2 ∈ idxKeys (idxInsert ix k li) ↔ k2 = k ∨ k2 ∈ idxKeys ix := by
  induction ix with
  | nil => simp [idxInsert, idxKeys]
  | cons p rest ih =>
    obtain ⟨k3, li3⟩ := p
    by_cases hk : k3 = k
    · subst hk
      have hins : idxInsert ((k3, li3) :: rest) k3 li = (k3, li) :: rest := by
        simp [idxInsert]
      rw [hins]
      simp only [idxKeys, List.map_cons, List.mem_cons]
      tauto
    · simp only [idxInsert, if_neg hk, idxKeys, List.map_cons, List.mem_cons] at ih ⊢
      rw [ih]
      tauto

theorem mem_idxKeys_remove (ix : Index) (k : Bytes) (k2 : Bytes) :
    k2 ∈ idxKeys (idxRemove ix k) ↔ k2 ≠ k ∧ k2 ∈ idxKeys ix := by
  induction ix with
  | nil => simp [idxRemove, idxKeys]
  | cons p rest ih =>
    obtain ⟨k3, li3⟩ := p
    by_cases hk : k3 = k
    · subst hk
      have hrem : idxRemove ((k3, li3) :: rest) k3 = idxRemove rest k3 := by
        simp [idxRemove]
      rw [hrem]
      simp only [idxKeys, List.map_cons, List.mem_cons] at ih ⊢
      rw [ih]
      constructor
      · tauto
      · rintro ⟨hne, h | h⟩
        · exact absurd h hne
        · exact ⟨hne, h⟩
    · simp only [idxRemove, if_neg hk, idxKeys, List.map_cons, List.mem_cons] at ih ⊢
      rw [ih]
      constructor
      · rintro (h | ⟨hne, h⟩)
        · subst h
          exact ⟨hk, Or.inl rfl⟩
        · exact ⟨hne, Or.inr h⟩
      · rintro ⟨hne, h | h⟩
        · exact Or.inl h
        · exact Or.inr ⟨hne, h⟩

theorem nodup_idxKeys_insert (ix : Index) (k : Bytes) (li : LogIndex)
    (h : (idxKeys ix).Nodup) : (idxKeys (idxInsert ix k li)).Nodup := by
  induction ix with
  | nil => simp [idxInsert, idxKeys]
  | cons p rest ih =>
    obtain ⟨k3, li3⟩ := p
    simp only [idxKeys, List.map_cons, List.nodup_cons] at h
    by_cases hk : k3 = k
    · subst hk
      have hins : idxInsert ((k3, li3) :: rest) k3 li = (k3, li) :: rest := by
        simp [idxInsert]
      rw [hins]
      simp only [idxKeys, List.map_cons, List.nodup_cons]
      exact h
    · simp only [idxInsert, if_neg hk, idxKeys, List.map_cons, List.nodup_cons]
      refine ⟨?_, ih h.2⟩
      intro hmem
      rcases (mem_idxKeys_insert rest k li k3).mp hmem with h2 | h2
      · exact hk h2
      · exact h.1 h2

theorem nodup_idxKeys_remove (ix : Index) (k : Bytes)
    (h : (idxKeys ix).Nodup) : (idxKeys (idxRemove ix k)).Nodup := by
  induction ix with
  | nil => simp [idxRemove, idxKeys]
  | cons p rest ih =>
    obtain ⟨k3, li3⟩ := p
    simp only [idxKeys, List.map_cons, List.nodup_cons] at h
    by_cases hk : k3 = k
    · simp only [idxRemove, if_pos hk]
      exact ih h.2
    · simp only [idxRemove, if_neg hk, idxKeys, List.map_cons, List.nodup_cons]
      refine ⟨?_, ih h.2⟩
      intro hmem
      exact h.1 ((mem_idxKeys_remove rest k k3).mp hmem).2

theorem nodup_idxKeys_replay (E : List DataFileEntry) :
    ∀ (pos : Nat) (ix : Index), (idxKeys ix).Nodup →
      (idxKeys (replayGo pos ix E)).Nodup := by
  induction E with
  | nil => intro pos ix h; exact h
  | cons en rest ih =>
    intro pos ix h
    simp only [replayGo]
    apply ih
    unfold replayStep
    cases en.value with
    | none => exact nodup_idxKeys_remove ix en.key h
    | some v => exact nodup_idxKeys_insert ix en.key _ h

theorem logical_eq_none_of_not_mem (k : Bytes) (E : List DataFileEntry)
    (h : k ∉ E.map DataFileEntry.key) : logical k E = none := by
  induction E using List.reverseRecOn with
  | nil => rfl
  | append_singleton E en ih =>
    simp only [List.map_append, List.map_cons, List.map_nil, List.mem_append,
      List.mem_cons, List.not_mem_nil, or_false, not_or] at h
    rw [logical_append, if_neg (fun he => h.2 he.symm)]
    exact ih h.1

theorem logical_value_mem (k : Bytes) (E : List DataFileEntry) (v : Bytes) :
    logical k E = some v → ∃ en ∈ E, en.key = k ∧ en.value = some v := by
  induction E using List.reverseRecOn with
  | nil => intro h; exact absurd h (by simp [logical])
  | append_singleton E en ih =>
    intro h
    rw [logical_append] at h
    by_cases hk : en.key = k
    · rw [if_pos hk] at h
      exact ⟨en, by simp, hk, h⟩
    · rw [if_neg hk] at h
      obtain ⟨en2, hmem, hkey, hval⟩ := ih h
      exact ⟨en2, by simp [hmem], hkey, hval⟩

theorem tomb_of_logical_none (k : Bytes) (E : List DataFileEntry)
    (hlog : logical k E = none) (hmem : k ∈ E.map DataFileEntry.key) :
    ∃ en ∈ E, en.key = k ∧ en.value = none := by
  induction E using List.reverseRecOn with
  | nil => simp at hmem
  | append_singleton E en ih =>
    rw [logical_append] at hlog
    by_cases hk : en.key = k
    · rw [if_pos hk] at hlog
      exact ⟨en, by simp, hk, hlog⟩
    · rw [if_neg hk] at hlog
      simp only [List.map_append, List.map_cons, List.map_nil, List.mem_append,
        List.mem_cons, List.not_mem_nil, or_false] at hmem
      rcases hmem with h | h
      · obtain ⟨en2, hmem2, hkey2, hval2⟩ := ih hlog h
        exact ⟨en2, by simp [hmem2], hkey2, hval2⟩
      · exact absurd h.symm hk

theorem logical_go_of_not_mem (k : Bytes) (E : List DataFileEntry)
    (acc : Option Bytes) (h : k ∉ E.map DataFileEntry.key) :
    E.foldl (fun acc en => if en.key = k then en.value else acc) acc = acc := by
  induction E generalizing acc with
  | nil => rfl
  | cons en rest ih =>
    simp only [List.map_cons, List.mem_cons, not_or] at h
    rw [List.foldl_cons]
    have hne : ¬en.key = k := fun he => h.1 he.symm
    rw [if_neg hne]
    exact ih acc h.2

theorem logical_of_nodup (k : Bytes) (E : List DataFileEntry) (en : DataFileEntry)
    (hnd : (E.map DataFileEntry.key).Nodup) (hmem : en ∈ E) (hkey : en.key = k) :
    logical k E = en.value := by
  obtain ⟨A, B, rfl⟩ := List.append_of_mem hmem
  unfold logical
  rw [List.foldl_append, List.foldl_cons, if_pos hkey]
  apply logical_go_of_not_mem
  simp only [List.map_append, List.map_cons] at hnd
  have h2 := (List.nodup_append.mp hnd).2.1
  rw [List.nodup_cons] at h2
  rw [← hkey]
  exact h2.1

theorem logical_congr_append (A B C : List DataFileEntry)
    (h : ∀ k, logical k A = logical k B) (k : Bytes) :
    logical k (A ++ C) = logical k (B ++ C) := by
  induction C using List.reverseRecOn generalizing k with
  | nil => simpa using h k
  | append_singleton C en ih =>
    rw [← List.append_assoc, ← List.append_assoc, logical_append, logical_append]
    by_cases hk : en.key = k
    · rw [if_pos hk, if_pos hk]
    · rw [if_neg hk, if_neg hk]
      exact ih k

theorem idxSize_insert_le (ix : Index) (k : Bytes) (li : LogIndex) :
    idxSize (idxInsert ix k li) ≤ idxSize ix + (8 + li.len) := by
  induction ix with
  | nil => simp [idxInsert, idxSize]
  | cons p rest ih =>
    obtain ⟨k2, li2⟩ := p
    by_cases hk : k2 = k
    · subst hk
      have hins : idxInsert ((k2, li2) :: rest) k2 li = (k2, li) :: rest := by
        simp [idxInsert]
      rw [hins]
      simp only [idxSize, List.map_cons, List.sum_cons]
      omega
    · simp only [idxInsert, if_neg hk, idxSize, List.map_cons, List.sum_cons]
      simp only [idxSize] at ih
      omega

theorem idxSize_insert_of_find (ix : Index) (k : Bytes) (li old : LogIndex)
    (h : idxFind ix k = some old) :
    idxSize (idxInsert ix k li) + old.len = idxSize ix + li.len := by
  induction ix with
  | nil => simp [idxFind] at h
  | cons p rest ih =>
    obtain ⟨k2, li2⟩ := p
    simp only [idxFind] at h
    by_cases hk : k2 = k
    · rw [if_pos hk] at h
      injection h with h
      subst hk
      subst h
      have hins : idxInsert ((k2, li2) :: rest) k2 li = (k2, li) :: rest := by
        simp [idxInsert]
      rw [hins]
      simp only [idxSize, List.map_cons, List.sum_cons]
      omega
    · rw [if_neg hk] at h
      simp only [idxInsert, if_neg hk, idxSize, List.map_cons, List.sum_cons]
      simp only [idxSize] at ih
      have := ih h
      omega

theorem idxSize_remove_le (ix : Index) (k : Bytes) :
    idxSize (idxRemove ix k) ≤ idxSize ix := by
  induction ix with
  | nil => simp [idxRemove]
  | cons p rest ih =>
    obtain ⟨k2, li2⟩ := p
    by_cases hk : k2 = k
    · simp only [idxRemove, if_pos hk, idxSize, List.map_cons, List.sum_cons]
      simp only [idxSize] at ih
      omega
    · simp only [idxRemove, if_neg hk, idxSize, List.map_cons, List.sum_cons]
      simp only [idxSize] at ih
      omega

def hasTomb (E : List DataFileEntry) : Prop := ∃ en ∈ E, en.value = none

def dupKeys (E : List DataFileEntry) : Prop := ¬(E.map DataFileEntry.key).Nodup

/-- The framed bytes the index accounts for never exceed the file length,
and are strictly fewer as soon as the log holds a superseded record or a
tombstone. -/
theorem replay_size (E : List DataFileEntry) (hok : ∀ en ∈ E, entryOk en) :
    idxSize (replayGo 0 [] E) ≤ (logOf E).length ∧
    ((dupKeys E ∨ hasTomb E) → idxSize (replayGo 0 [] E) < (logOf E).length) := by
  induction E using List.reverseRecOn with
  | nil =>
    refine ⟨by simp [replayGo, idxSize, logOf], fun h => ?_⟩
    rcases h with h | h
    · exact absurd List.nodup_nil h
    · obtain ⟨en, hmem, _⟩ := h
      simp at hmem
  | append_singleton E en ih =>
    have hokE : ∀ x ∈ E, entryOk x := fun x hx => hok x (by simp [hx])
    obtain ⟨ihle, ihlt⟩ := ih hokE
    have hidx : replayGo 0 [] (E ++ [en]) =
        replayStep (logOf E).length (replayGo 0 [] E) en := by
      rw [replayGo_append]
      simp [replayGo]
    have hlen : (logOf (E ++ [en])).length =
        (logOf E).length + (8 + (encodeEntry en).length) := by
      rw [logOf_append]
      simp [logOf, length_encFrame]
    rw [hidx, hlen]
    unfold replayStep
    cases hv : en.value with
    | none =>
      dsimp only
      have hrm := idxSize_remove_le (replayGo 0 [] E) en.key
      exact ⟨by omega, fun _ => by omega⟩
    | some v =>
      dsimp only
      have hin := idxSize_insert_le (replayGo 0 [] E) en.key
        ⟨(logOf E).length + 8, (encodeEntry en).length⟩
      dsimp only at hin
      constructor
      · omega
      · intro hcond
        have hdup : dupKeys E ∨ hasTomb E ∨ en.key ∈ E.map DataFileEntry.key := by
          rcases hcond with h | h
          · unfold dupKeys at h ⊢
            by_cases hd : (E.map DataFileEntry.key).Nodup
            · right; right
              by_contra hmem
              apply h
              rw [List.map_append]
              simp only [List.map_cons, List.map_nil]
              rw [List.nodup_append]
              refine ⟨hd, List.nodup_singleton _, ?_⟩
              intro a ha hb
              simp only [List.mem_singleton] at hb
              subst hb
              exact hmem ha
            · left; exact hd
          · obtain ⟨en2, hmem2, hval2⟩ := h
            rcases List.mem_append.mp hmem2 with h2 | h2
            · right; left
              exact ⟨en2, h2, hval2⟩
            · simp only [List.mem_singleton] at h2
              subst h2
              rw [hv] at hval2
              exact absurd hval2 (by simp)
        rcases hdup with h | h | h
        · have := ihlt (Or.inl h)
          omega
        · have := ihlt (Or.inr h)
          omega
        · cases hfind : idxFind (replayGo 0 [] E) en.key with
          | none =>
            have hlog := (replay_index_spec E hokE en.key).1 hfind
            obtain ⟨en2, hmem2, _, hval2⟩ := tomb_of_logical_none en.key E hlog h
            have := ihlt (Or.inr ⟨en2, hmem2, hval2⟩)
            omega
          | some old =>
            have heq := idxSize_insert_of_find (replayGo 0 [] E) en.key
              ⟨(logOf E).length + 8, (encodeEntry en).length⟩ old hfind
            dsimp only at heq
            omega

/-- The facts a compaction needs about one index snapshot entry: the
positioned read returns exactly the encoded bytes of a live,
self-decoding record for that key, and the stored length is the payload
length. -/
def goodPair (f : Bytes) (kv : Bytes × LogIndex) (en : DataFileEntry) : Prop :=
  slice f kv.2 = encodeEntry en ∧ en.key = kv.1 ∧ (∃ v, en.value = some v) ∧
  kv.2.len = (encodeEntry en).length ∧ decodeEntry (encodeEntry en) = some en ∧
  entryOk en

theorem forall2_mem_left {α β : Type} {R : α → β → Prop} {l1 : List α} {l2 : List β}
    (h : List.Forall₂ R l1 l2) (a : α) (ha : a ∈ l1) : ∃ b ∈ l2, R a b := by
  induction h with
  | nil => simp at ha
  | cons hr _ ih =>
    rcases List.mem_cons.mp ha with h2 | h2
    · subst h2
      exact ⟨_, by simp, hr⟩
    · obtain ⟨b, hb, hrb⟩ := ih h2
      exact ⟨b, by simp [hb], hrb⟩

theorem forall2_keys_eq (f : Bytes) :
    ∀ {ps : Index} {E2 : List DataFileEntry}, List.Forall₂ (goodPair f) ps E2 →
      E2.map DataFileEntry.key = idxKeys ps := by
  intro ps E2 h
  induction h with
  | nil => rfl
  | cons hr _ ih =>
    unfold idxKeys at ih ⊢
    simp only [List.map_cons]
    rw [hr.2.1, ih]

theorem forall2_logOf_length (f : Bytes) :
    ∀ {ps : Index} {E2 : List DataFileEntry}, List.Forall₂ (goodPair f) ps E2 →
      (logOf E2).length = idxSize ps := by
  intro ps E2 h
  induction h with
  | nil => rfl
  | cons hr _ ih =>
    unfold idxSize at ih ⊢
    simp only [logOf, List.length_append, length_encFrame, List.map_cons, List.sum_cons]
    rw [ih, hr.2.2.2.1]

/-- Folding the compaction step over any snapshot whose entries all read
back as live records produces exactly the log of those records and the
replayed index of the new file. -/
theorem compact_fold (f : Bytes) :
    ∀ (ps : Index) (f0 : Bytes) (ix0 : Index),
      (∀ kv ∈ ps, ∃ en, goodPair f kv en) →
      ∃ E2, List.Forall₂ (goodPair f) ps E2 ∧
        ps.foldl (compactStep f) (f0, ix0) = (f0 ++ logOf E2, replayGo f0.length ix0 E2) := by
  intro ps
  induction ps with
  | nil =>
    intro f0 ix0 _
    exact ⟨[], List.Forall₂.nil, by simp [logOf, replayGo]⟩
  | cons kv ps ih =>
    intro f0 ix0 h
    obtain ⟨en, hg⟩ := h kv (by simp)
    have hstep : compactStep f (f0, ix0) kv =
        (f0 ++ encFrame en, replayStep f0.length ix0 en) := by
      obtain ⟨v, hv⟩ := hg.2.2.1
      have hsl : (f.drop kv.2.pos).take kv.2.len = encodeEntry en := hg.1
      unfold compactStep encFrame replayStep
      dsimp only
      rw [hsl, hg.2.2.2.1, hv, ← hg.2.1, List.append_assoc]
    obtain ⟨E2, hfa, heq⟩ := ih (f0 ++ encFrame en) (replayStep f0.length ix0 en)
      (fun kv2 hkv2 => h kv2 (by simp [hkv2]))
    refine ⟨en :: E2, List.Forall₂.cons hg hfa, ?_⟩
    rw [List.foldl_cons, hstep, heq]
    simp only [logOf, List.append_assoc, List.length_append, length_encFrame, replayGo]

theorem forall2_mem_right {α β : Type} {R : α → β → Prop} {l1 : List α} {l2 : List β}
    (h : List.Forall₂ R l1 l2) (b : β) (hb : b ∈ l2) : ∃ a ∈ l1, R a b := by
  induction h with
  | nil => simp at hb
  | cons hr _ ih =>
    rcases List.mem_cons.mp hb with h2 | h2
    · subst h2
      exact ⟨_, by simp, hr⟩
    · obtain ⟨a, ha, hra⟩ := ih h2
      exact ⟨a, by simp [ha], hra⟩

/-- Everything compaction guarantees on a well-formed log: the result is
again the engine of a record list holding exactly one live record per
live key, whose logical contents agree with the original, and whose file
is exactly the bytes the old index accounted for. -/
theorem compact_master (E : List DataFileEntry) (hok : ∀ en ∈ E, entryOk en) :
    ∃ E2, (engineOf E).compact = engineOf E2 ∧
      (∀ en ∈ E2, entryOk en) ∧
      (∀ en ∈ E2, ∃ v, en.value = some v) ∧
      (E2.map DataFileEntry.key).Nodup ∧
      (∀ en ∈ E2, en.value = logical en.key E) ∧
      (∀ k, k ∈ E2.map DataFileEntry.key ↔ ¬idxFind (replayGo 0 [] E) k = none) ∧
      (logOf E2).length = idxSize (replayGo 0 [] E) ∧
      (∀ k, logical k E2 = logical k E) := by
  have hnd : (idxKeys (replayGo 0 [] E)).Nodup :=
    nodup_idxKeys_replay E 0 [] (by simp [idxKeys])
  have hps : ∀ kv ∈ replayGo 0 [] E, ∃ en, goodPair (logOf E) kv en := by
    intro kv hkv
    have hfind : idxFind (replayGo 0 [] E) kv.1 = some kv.2 :=
      idxFind_of_mem _ hnd kv hkv
    obtain ⟨hb, en, hdec, henc, hkey, hval, hlive, hlen, hok2⟩ :=
      (replay_index_spec E hok kv.1).2 kv.2 hfind
    refine ⟨en, henc.symm, hkey, hlive, hlen, ?_, hok2⟩
    rw [henc]
    exact hdec
  obtain ⟨E2, hfa, heq⟩ := compact_fold (logOf E) (replayGo 0 [] E) [] [] hps
  have hcomp : (engineOf E).compact = engineOf E2 := by
    unfold Engine.compact engineOf
    dsimp only
    rw [heq]
    simp [engineOf]
  have hval2 : ∀ en ∈ E2, en.value = logical en.key E := by
    intro en2 hen2
    obtain ⟨kv, hkv, hg⟩ := forall2_mem_right hfa en2 hen2
    have hfind : idxFind (replayGo 0 [] E) kv.1 = some kv.2 :=
      idxFind_of_mem _ hnd kv hkv
    obtain ⟨hb, en0, hdec, henc, hkey, hval, hlive, hlen, hok0⟩ :=
      (replay_index_spec E hok kv.1).2 kv.2 hfind
    have he : en0 = en2 := by
      rw [hg.1] at hdec
      rw [hg.2.2.2.2.1] at hdec
      injection hdec with h2
      exact h2.symm
    subst he
    rw [hval, hkey]
  have hkeys : E2.map DataFileEntry.key = idxKeys (replayGo 0 [] E) :=
    forall2_keys_eq (logOf E) hfa
  refine ⟨E2, hcomp, ?_, ?_, ?_, hval2, ?_, ?_, ?_⟩
  · intro en2 hen2
    obtain ⟨kv, hkv, hg⟩ := forall2_mem_right hfa en2 hen2
    exact hg.2.2.2.2.2
  · intro en2 hen2
    obtain ⟨kv, hkv, hg⟩ := forall2_mem_right hfa en2 hen2
    exact hg.2.2.1
  · rw [hkeys]
    exact hnd
  · intro k
    rw [hkeys, idxFind_eq_none_iff]
    tauto
  · exact forall2_logOf_length (logOf E) hfa
  · intro k
    by_cases hmem : k ∈ E2.map DataFileEntry.key
    · obtain ⟨en2, hen2, hkey2⟩ := List.mem_map.mp hmem
      rw [logical_of_nodup k E2 en2 (hkeys ▸ hnd) hen2 hkey2]
      rw [hval2 en2 hen2, hkey2]
    · rw [logical_eq_none_of_not_mem k E2 hmem]
      have hfind : idxFind (replayGo 0 [] E) k = none := by
        rw [idxFind_eq_none_iff]
        rw [hkeys] at hmem
        exact hmem
      exact ((replay_index_spec E hok k).1 hfind).symm

def applyOpT (s : EngineT) : Op → EngineT
  | .set t k v => s.set t k v
  | .del t k => s.del t k

def applyOpsT (s : EngineT) (ops : List Op) : EngineT := ops.foldl applyOpT s

theorem length_le_one_of_const_nodup {α β : Type} (l : List α) (f : α → β) (c : β)
    (hnd : (l.map f).Nodup) (hc : ∀ x ∈ l, f x = c) : l.length ≤ 1 := by
  match l with
  | [] => simp
  | [a] => simp
  | a :: b :: rest =>
    exfalso
    simp only [List.map_cons, List.nodup_cons, List.mem_cons, List.mem_map] at hnd
    apply hnd.1
    left
    rw [hc a (by simp), hc b (by simp)]

/-- Every state reachable through the thresholded engine is the engine of
a well-formed record list with the same logical contents as the issued
operations: auto-compaction is invisible to `get`. -/
theorem applyOpsT_go :
    ∀ (ops : List Op) (s : EngineT) (E : List DataFileEntry),
      (∀ op ∈ ops, opOk op) → (∀ en ∈ E, entryOk en) → s.eng = engineOf E →
      ∃ E2, (applyOpsT s ops).eng = engineOf E2 ∧ (∀ en ∈ E2, entryOk en) ∧
        (∀ k, logical k E2 = logical k (E ++ entriesOf ops)) := by
  intro ops
  induction ops with
  | nil =>
    intro s E _ hE hs
    exact ⟨E, hs, hE, fun k => by simp [entriesOf]⟩
  | cons op ops ih =>
    intro s E hops hE hs
    have hopok : opOk op := hops op (by simp)
    have hopsok : ∀ x ∈ ops, opOk x := fun x hx => hops x (by simp [hx])
    have hstep : ∃ E1, (applyOpT s op).eng = engineOf E1 ∧
        (∀ en ∈ E1, entryOk en) ∧
        (∀ k, logical k E1 = logical k (E ++ [op.entry])) := by
      have hE1ok : ∀ en ∈ E ++ [op.entry], entryOk en := by
        intro x hx
        rcases List.mem_append.mp hx with h | h
        · exact hE x h
        · simp only [List.mem_singleton] at h
          subst h
          exact hopok
      cases op with
      | set t k v =>
        unfold applyOpT EngineT.set
        dsimp only
        rw [hs, set_engineOf]
        split
        · obtain ⟨E2, hcomp, hok2, _, _, _, _, _, hlog2⟩ :=
            compact_master (E ++ [(⟨t, k, some v⟩ : DataFileEntry)]) hE1ok
          exact ⟨E2, hcomp, hok2, fun k2 => hlog2 k2⟩
        · exact ⟨E ++ [(⟨t, k, some v⟩ : DataFileEntry)], rfl, hE1ok, fun _ => rfl⟩
      | del t k =>
        unfold applyOpT EngineT.del
        dsimp only
        rw [hs, del_engineOf]
        exact ⟨E ++ [(⟨t, k, none⟩ : DataFileEntry)], rfl, hE1ok, fun _ => rfl⟩
    obtain ⟨E1, heng1, hok1, hlog1⟩ := hstep
    obtain ⟨E2, heng2, hok2, hlog2⟩ := ih (applyOpT s op) E1 hopsok hok1 heng1
    refine ⟨E2, heng2, hok2, fun k => ?_⟩
    rw [hlog2 k]
    have : logical k (E1 ++ entriesOf ops) =
        logical k ((E ++ [op.entry]) ++ entriesOf ops) :=
      logical_congr_append E1 (E ++ [op.entry]) (entriesOf ops) hlog1 k
    rw [this, List.append_assoc]
    rfl

/-- Invariant run for repeated `set`s of one key through the thresholded
engine: the file size always stays within one maximal frame plus the
bytes admitted since the last compaction, which the threshold caps. -/
theorem boundT_invariant (k : Bytes) (thr B : Nat) (hthr : 1 ≤ thr)
    (hkB : 25 + k.length + B < 2 ^ 64) :
    ∀ (vs : List (Int × Bytes)) (s : EngineT) (E : List DataFileEntry),
      (∀ tv ∈ vs, (tv.2 : Bytes).length ≤ B) →
      s.eng = engineOf E → s.threshold = thr → s.since < thr →
      (∀ en ∈ E, en.key = k ∧ entryOk en ∧ ∃ v, en.value = some v ∧ v.length ≤ B) →
      s.eng.file.length ≤ 33 + k.length + B + s.since →
      ∃ (E2 : List DataFileEntry),
        (vs.foldl (fun s tv => s.set tv.1 k tv.2) s).eng = engineOf E2 ∧
        (vs.foldl (fun s tv => s.set tv.1 k tv.2) s).threshold = thr ∧
        (vs.foldl (fun s tv => s.set tv.1 k tv.2) s).since < thr ∧
        (∀ en ∈ E2, en.key = k ∧ entryOk en ∧ ∃ v, en.value = some v ∧ v.length ≤ B) ∧
        (vs.foldl (fun s tv => s.set tv.1 k tv.2) s).eng.file.length ≤
          33 + k.length + B + (vs.foldl (fun s tv => s.set tv.1 k tv.2) s).since := by
  intro vs
  induction vs with
  | nil =>
    intro s E _ hs hthr2 hsince hall hfile
    exact ⟨E, hs, hthr2, hsince, hall, hfile⟩
  | cons tv vs ih =>
    intro s E hvs hs hthr2 hsince hall hfile
    obtain ⟨t, v⟩ := tv
    have hvB : v.length ≤ B := hvs (t, v) (by simp)
    have hvsB : ∀ x ∈ vs, (x.2 : Bytes).length ≤ B := fun x hx => hvs x (by simp [hx])
    have hdlen : (encodeEntry ⟨t, k, some v⟩).length = 25 + k.length + v.length := by
      rw [length_encodeEntry]
      dsimp only
      omega
    have henok : entryOk (⟨t, k, some v⟩ : DataFileEntry) := by
      unfold entryOk
      rw [hdlen]
      omega
    have hallE1 : ∀ en ∈ E ++ [(⟨t, k, some v⟩ : DataFileEntry)],
        en.key = k ∧ entryOk en ∧ ∃ v2, en.value = some v2 ∧ v2.length ≤ B := by
      intro x hx
      rcases List.mem_append.mp hx with h | h
      · exact hall x h
      · simp only [List.mem_singleton] at h
        subst h
        exact ⟨rfl, henok, v, rfl, hvB⟩
    have hE1ok : ∀ en ∈ E ++ [(⟨t, k, some v⟩ : DataFileEntry)], entryOk en :=
      fun x hx => (hallE1 x hx).2.1
    rw [List.foldl_cons]
    set en : DataFileEntry := ⟨t, k, some v⟩ with hen
    have hsetT : EngineT.set s t k v =
        (if s.threshold ≤ s.since + (8 + (encodeEntry en).length)
         then ⟨(s.eng.set t k v).compact, s.threshold, 0⟩
         else ⟨s.eng.set t k v, s.threshold, s.since + (8 + (encodeEntry en).length)⟩) := by
      unfold EngineT.set
      rfl
    rw [hsetT]
    by_cases htrig : s.threshold ≤ s.since + (8 + (encodeEntry en).length)
    · rw [if_pos htrig]
      obtain ⟨E2, hcomp, hok2, hlive2, hnd2, hval2, hkeys2, hsize2, hlog2⟩ :=
        compact_master (E ++ [en]) hE1ok
      have hallE2 : ∀ en2 ∈ E2,
          en2.key = k ∧ entryOk en2 ∧ ∃ v2, en2.value = some v2 ∧ v2.length ≤ B := by
        intro en2 hen2
        obtain ⟨v2, hv2⟩ := hlive2 en2 hen2
        have hlogval : logical en2.key (E ++ [en]) = some v2 := by
          rw [← hval2 en2 hen2]
          exact hv2
        obtain ⟨en3, hen3, hkey3, hval3⟩ := logical_value_mem _ _ _ hlogval
        have hk3 := (hallE1 en3 hen3).1
        obtain ⟨_, _, v4, hv4, hv4B⟩ := hallE1 en3 hen3
        rw [hval3] at hv4
        injection hv4 with hv4
        refine ⟨?_, hok2 en2 hen2, v2, hv2, ?_⟩
        · rw [← hk3, ← hkey3]
        · rw [hv4]
          exact hv4B
      have hlen2 : E2.length ≤ 1 :=
        length_le_one_of_const_nodup E2 DataFileEntry.key k hnd2
          (fun x hx => (hallE2 x hx).1)
      have hfile2 : (logOf E2).length ≤ 33 + k.length + B := by
        match E2, hlen2 with
        | [], _ => simp [logOf]
        | [en2], _ =>
          obtain ⟨_, _, v2, hv2, hv2B⟩ := hallE2 en2 (by simp)
          have : (encodeEntry en2).length = 25 + en2.key.length + v2.length := by
            rw [length_encodeEntry, hv2]
            dsimp only
            omega
          have hk2 : en2.key = k := (hallE2 en2 (by simp)).1
          simp only [logOf, List.append_nil, length_encFrame, List.length_append]
          rw [this, hk2]
          simp [logOf]
          omega
      refine ih ⟨(s.eng.set t k v).compact, s.threshold, 0⟩ E2 hvsB ?_ hthr2 ?_ hallE2 ?_
      · dsimp only
        rw [hs, set_engineOf]
        exact hcomp
      · dsimp only
        omega
      · dsimp only
        rw [hs, set_engineOf, hcomp]
        unfold engineOf
        dsimp only
        omega
    · rw [if_neg htrig]
      refine ih ⟨s.eng.set t k v, s.threshold, s.since + (8 + (encodeEntry en).length)⟩
        (E ++ [en]) hvsB ?_ hthr2 ?_ hallE1 ?_
      · dsimp only
        rw [hs, set_engineOf]
      · dsimp only
        rw [← hthr2]
        omega
      · dsimp only
        rw [hs, set_engineOf]
        unfold engineOf
        dsimp only
        rw [logOf_append]
        simp only [List.length_append, logOf, List.append_nil, length_encFrame]
        have hfileE : (logOf E).length ≤ 33 + k.length + B + s.since := by
          rw [hs] at hfile
          exact hfile
        have hdlen2 : (encodeEntry (⟨t, k, some v⟩ : DataFileEntry)).length =
            25 + k.length + v.length := hdlen
        simp [logOf]
        omega

/-- C1: for every engine state (in particular every reachable one), every
key and every value — including the empty value and arbitrary bytes —
`set(k, v)` followed by `get(k)` on the same engine returns exactly `v`
as a present value, and the latest `set` for a key wins over any earlier
`set` of the same key.  The hypothesis says the encoded record fits the
64-bit length framing, which is always true of the Rust `usize` lengths. -/
theorem spec_round_trip (e : Engine) (t : Int) (k v : Bytes)
    (h : entryOk ⟨t, k, some v⟩) :
    (e.set t k v).get k = IOResult.ok (some v) ∧
    ∀ (t0 : Int) (v0 : Bytes),
      ((e.set t0 k v0).set t k v).get k = IOResult.ok (some v) :=
  ⟨get_after_set e t k v h, fun t0 v0 => get_after_set (e.set t0 k v0) t k v h⟩

theorem spec_round_trip_witness :
    entryOk ⟨(5 : Int), [0, 255], some []⟩ ∧
    ((Engine.mk [] []).set 5 [0, 255] []).get [0, 255] = IOResult.ok (some []) ∧
    (((Engine.mk [] []).set 7 [0, 255] [1]).set 5 [0, 255] []).get [0, 255] =
      IOResult.ok (some []) :=
  ⟨by decide, (spec_round_trip ⟨[], []⟩ 5 [0, 255] [] (by decide)).1,
   (spec_round_trip ⟨[], []⟩ 5 [0, 255] [] (by decide)).2 7 [1]⟩

/-- C2: for every starting log and every sequence of set and delete
operations, re-opening the resulting file rebuilds exactly the pre-close
engine (so `get` agrees on every key), and every `get` observes the
latest record per key in file order, with tombstones removing keys and
later live sets overriding earlier tombstones. -/
theorem spec_durability_reopen (E0 : List DataFileEntry) (ops : List Op)
    (h0 : ∀ en ∈ E0, entryOk en) (hops : ∀ op ∈ ops, opOk op) :
    Engine.load (applyOps (engineOf E0) ops).file =
      IOResult.ok (applyOps (engineOf E0) ops) ∧
    (∀ k, (applyOps (engineOf E0) ops).get k =
      IOResult.ok (logical k (E0 ++ entriesOf ops))) := by
  have hE : ∀ en ∈ E0 ++ entriesOf ops, entryOk en := by
    intro x hx
    rcases List.mem_append.mp hx with h | h
    · exact h0 x h
    · obtain ⟨op, hop, rfl⟩ := List.mem_map.mp h
      exact hops op hop
  have happ := applyOps_engineOf ops E0
  constructor
  · rw [happ]
    exact load_logOf _ hE
  · intro k
    rw [happ]
    exact get_engineOf _ hE k

theorem spec_durability_reopen_witness :
    (∀ op ∈ ([Op.set 0 [1] [2], Op.set 0 [5] [6], Op.del 1 [1],
        Op.set 2 [5] [7]] : List Op), opOk op) ∧
    Engine.load (applyOps (engineOf []) [Op.set 0 [1] [2], Op.set 0 [5] [6],
        Op.del 1 [1], Op.set 2 [5] [7]]).file =
      IOResult.ok (applyOps (engineOf []) [Op.set 0 [1] [2], Op.set 0 [5] [6],
        Op.del 1 [1], Op.set 2 [5] [7]]) ∧
    (applyOps (engineOf []) [Op.set 0 [1] [2], Op.set 0 [5] [6], Op.del 1 [1],
        Op.set 2 [5] [7]]).get [1] =
      IOResult.ok (logical [1] ([] ++ entriesOf [Op.set 0 [1] [2], Op.set 0 [5] [6],
        Op.del 1 [1], Op.set 2 [5] [7]])) ∧
    (applyOps (engineOf []) [Op.set 0 [1] [2], Op.set 0 [5] [6], Op.del 1 [1],
        Op.set 2 [5] [7]]).get [5] =
      IOResult.ok (logical [5] ([] ++ entriesOf [Op.set 0 [1] [2], Op.set 0 [5] [6],
        Op.del 1 [1], Op.set 2 [5] [7]])) :=
  ⟨by decide,
   (spec_durability_reopen [] _ (by simp) (by decide)).1,
   (spec_durability_reopen [] _ (by simp) (by decide)).2 [1],
   (spec_durability_reopen [] _ (by simp) (by decide)).2 [5]⟩

/-- C5: in every reachable engine state, every key present in the index
points inside the file at a record that decodes to a live value for that
key; a key is absent from the index exactly when its latest record is a
tombstone or it was never written; and a `get` that finds the key in the
index returns a present value. -/
theorem spec_index_invariant (ops : List Op) (hops : ∀ op ∈ ops, opOk op) :
    (∀ k li, idxFind (applyOps ⟨[], []⟩ ops).index k = some li →
      li.pos + li.len ≤ (applyOps ⟨[], []⟩ ops).file.length ∧
      ∃ en v, decodeEntry (slice (applyOps ⟨[], []⟩ ops).file li) = some en ∧
        en.key = k ∧ en.value = some v) ∧
    (∀ k, idxFind (applyOps ⟨[], []⟩ ops).index k = none ↔
      logical k (entriesOf ops) = none) ∧
    (∀ k li, idxFind (applyOps ⟨[], []⟩ ops).index k = some li →
      ∃ v, (applyOps ⟨[], []⟩ ops).get k = IOResult.ok (some v)) := by
  have hE : ∀ en ∈ entriesOf ops, entryOk en := by
    intro x hx
    obtain ⟨op, hop, rfl⟩ := List.mem_map.mp hx
    exact hops op hop
  rw [applyOps_empty ops]
  refine ⟨?_, ?_, ?_⟩
  · intro k li hfind
    obtain ⟨hb, en, hdec, henc, hkey, hval, ⟨v, hv⟩, hlen, hok2⟩ :=
      (replay_index_spec (entriesOf ops) hE k).2 li hfind
    exact ⟨hb, en, v, hdec, hkey, hv⟩
  · intro k
    constructor
    · exact (replay_index_spec (entriesOf ops) hE k).1
    · intro hlog
      cases hfind : idxFind (engineOf (entriesOf ops)).index k with
      | none => rfl
      | some li =>
        obtain ⟨_, en, _, _, _, hval, ⟨v, hv⟩, _, _⟩ :=
          (replay_index_spec (entriesOf ops) hE k).2 li hfind
        rw [hval, hlog] at hv
        exact absurd hv (by simp)
  · intro k li hfind
    obtain ⟨hb, en, hdec, henc, hkey, hval, ⟨v, hv⟩, hlen, hok2⟩ :=
      (replay_index_spec (entriesOf ops) hE k).2 li hfind
    refine ⟨v, ?_⟩
    rw [get_engineOf (entriesOf ops) hE k, ← hval, hv]

theorem spec_index_invariant_witness :
    (∀ op ∈ ([Op.set 0 [1] [2], Op.del 0 [3], Op.set 1 [1] [9]] : List Op), opOk op) ∧
    ((∀ k li, idxFind (applyOps ⟨[], []⟩ [Op.set 0 [1] [2], Op.del 0 [3],
        Op.set 1 [1] [9]]).index k = some li →
      li.pos + li.len ≤ (applyOps ⟨[], []⟩ [Op.set 0 [1] [2], Op.del 0 [3],
        Op.set 1 [1] [9]]).file.length ∧
      ∃ en v, decodeEntry (slice (applyOps ⟨[], []⟩ [Op.set 0 [1] [2], Op.del 0 [3],
        Op.set 1 [1] [9]]).file li) = some en ∧ en.key = k ∧ en.value = some v) ∧
    (∀ k, idxFind (applyOps ⟨[], []⟩ [Op.set 0 [1] [2], Op.del 0 [3],
        Op.set 1 [1] [9]]).index k = none ↔
      logical k (entriesOf [Op.set 0 [1] [2], Op.del 0 [3], Op.set 1 [1] [9]]) = none) ∧
    (∀ k li, idxFind (applyOps ⟨[], []⟩ [Op.set 0 [1] [2], Op.del 0 [3],
        Op.set 1 [1] [9]]).index k = some li →
      ∃ v, (applyOps ⟨[], []⟩ [Op.set 0 [1] [2], Op.del 0 [3],
        Op.set 1 [1] [9]]).get k = IOResult.ok (some v))) :=
  ⟨by decide, spec_index_invariant [Op.set 0 [1] [2], Op.del 0 [3], Op.set 1 [1] [9]]
    (by decide)⟩

/-- C6: on every engine state, `set(k, v)` then `delete(k)` then `get(k)`
returns "not found" as a normal non-error result; and on every reachable
state, deleting an absent key is a logical no-op that leaves the index
untouched and every `get` unchanged (the modelled `del` is the success
path of the code, which returns `Ok` in all non-I/O-failure runs). -/
theorem spec_tombstone_delete (e : Engine) (t1 t2 t3 : Int) (k k2 v : Bytes)
    (ops : List Op) (hops : ∀ op ∈ ops, opOk op)
    (htomb : entryOk ⟨t3, k2, none⟩)
    (habs : idxFind (applyOps ⟨[], []⟩ ops).index k2 = none) :
    ((e.set t1 k v).del t2 k).get k = IOResult.ok none ∧
    ((applyOps ⟨[], []⟩ ops).del t3 k2).index = (applyOps ⟨[], []⟩ ops).index ∧
    (∀ k3, ((applyOps ⟨[], []⟩ ops).del t3 k2).get k3 =
      (applyOps ⟨[], []⟩ ops).get k3) := by
  have hE : ∀ en ∈ entriesOf ops, entryOk en := by
    intro x hx
    obtain ⟨op, hop, rfl⟩ := List.mem_map.mp hx
    exact hops op hop
  refine ⟨get_after_del _ t2 k, ?_, ?_⟩
  · rw [del_index]
    exact idxRemove_of_find_none _ k2 habs
  · intro k3
    rw [applyOps_empty ops] at habs ⊢
    have htombE : ∀ en ∈ entriesOf ops ++ [(⟨t3, k2, none⟩ : DataFileEntry)],
        entryOk en := by
      intro x hx
      rcases List.mem_append.mp hx with h | h
      · exact hE x h
      · simp only [List.mem_singleton] at h
        subst h
        exact htomb
    rw [del_engineOf, get_engineOf _ htombE k3, get_engineOf _ hE k3]
    rw [logical_append]
    by_cases hk : k2 = k3
    · subst hk
      rw [if_pos rfl]
      have hlog := (replay_index_spec (entriesOf ops) hE k2).1 habs
      rw [hlog]
    · rw [if_neg hk]

theorem spec_tombstone_delete_witness :
    ((∀ op ∈ ([Op.set 0 [1] [2]] : List Op), opOk op) ∧
     entryOk ⟨(0 : Int), [9], none⟩ ∧
     idxFind (applyOps ⟨[], []⟩ [Op.set 0 [1] [2]]).index [9] = none) ∧
    (((Engine.mk [] []).set 0 [4] [5]).del 1 [4]).get [4] = IOResult.ok none ∧
    ((applyOps ⟨[], []⟩ [Op.set 0 [1] [2]]).del 0 [9]).index =
      (applyOps ⟨[], []⟩ [Op.set 0 [1] [2]]).index ∧
    ((applyOps ⟨[], []⟩ [Op.set 0 [1] [2]]).del 0 [9]).get [1] =
      (applyOps ⟨[], []⟩ [Op.set 0 [1] [2]]).get [1] :=
  ⟨⟨by decide, by decide, by decide⟩,
   (spec_tombstone_delete ⟨[], []⟩ 0 1 0 [4] [9] [5] [Op.set 0 [1] [2]]
     (by decide) (by decide) (by decide)).1,
   (spec_tombstone_delete ⟨[], []⟩ 0 1 0 [4] [9] [5] [Op.set 0 [1] [2]]
     (by decide) (by decide) (by decide)).2.1,
   (spec_tombstone_delete ⟨[], []⟩ 0 1 0 [4] [9] [5] [Op.set 0 [1] [2]]
     (by decide) (by decide) (by decide)).2.2 [1]⟩

/-- C7: whenever `set` fails at any of its fallible steps — encode, seek,
either write, the position query or the flush — the in-memory index is
exactly as it was before the call (the code inserts into the index only
after every fallible step has succeeded); and a fully successful run is
exactly the pure `set`. -/
theorem spec_failed_set_atomic (e : Engine) (t : Int) (k v : Bytes) (env : IOEnv) :
    (∀ err, (e.setRun t k v env).2 = some err → (e.setRun t k v env).1.index = e.index) ∧
    ((e.setRun t k v env).2 = none → (e.setRun t k v env).1 = e.set t k v) := by
  cases henc : env.encodeOk <;> cases hseek : env.seekOk <;> cases hwl : env.writeLenOk <;>
    cases hpos : env.posOk <;> cases hwd : env.writeDataOk <;> cases hfl : env.flushOk <;>
    refine ⟨fun err herr => ?_, fun hnone => ?_⟩ <;>
    simp_all [Engine.setRun, Engine.set]

theorem spec_failed_set_atomic_witness :
    ((Engine.mk [] [([7], ⟨0, 3⟩)]).setRun 0 [1] [2]
      ⟨true, true, false, true, true, true, [9]⟩).2 = some IOErrorKind.other ∧
    ((Engine.mk [] [([7], ⟨0, 3⟩)]).setRun 0 [1] [2]
      ⟨true, true, false, true, true, true, [9]⟩).1.index = [([7], ⟨0, 3⟩)] ∧
    ((Engine.mk [] [([7], ⟨0, 3⟩)]).setRun 0 [1] [2]
      ⟨true, true, true, true, true, true, []⟩).2 = none ∧
    ((Engine.mk [] [([7], ⟨0, 3⟩)]).setRun 0 [1] [2]
      ⟨true, true, true, true, true, true, []⟩).1 =
      (Engine.mk [] [([7], ⟨0, 3⟩)]).set 0 [1] [2] :=
  ⟨by decide,
   (spec_failed_set_atomic ⟨[], [([7], ⟨0, 3⟩)]⟩ 0 [1] [2]
     ⟨true, true, false, true, true, true, [9]⟩).1 IOErrorKind.other (by decide),
   by decide,
   (spec_failed_set_atomic ⟨[], [([7], ⟨0, 3⟩)]⟩ 0 [1] [2]
     ⟨true, true, true, true, true, true, []⟩).2 (by decide)⟩

theorem compact_file_empty (e : Engine) (h : e.index = []) : e.compact.file = [] := by
  unfold Engine.compact
  rw [h]
  rfl

/-- C3: on every reachable engine state, `compact()` leaves the result of
`get` unchanged for every key; afterwards the file consists of exactly
one live record per live key — no tombstones, no superseded values, and
the key set of the new file is exactly the live key set; the file size
never grows, shrinks strictly whenever any key had more than one record
or any tombstone existed; and with no live keys the compacted file is
empty.  (`compact` is modelled from the spec: the source has no
compaction.) -/
theorem spec_compaction (ops : List Op) (hops : ∀ op ∈ ops, opOk op) :
    (∀ k, (applyOps ⟨[], []⟩ ops).compact.get k = (applyOps ⟨[], []⟩ ops).get k) ∧
    (∃ E2, (applyOps ⟨[], []⟩ ops).compact.file = logOf E2 ∧
      (E2.map DataFileEntry.key).Nodup ∧
      (∀ en ∈ E2, ∃ v, en.value = some v ∧
        logical en.key (entriesOf ops) = some v) ∧
      (∀ k, k ∈ E2.map DataFileEntry.key ↔ ¬logical k (entriesOf ops) = none)) ∧
    (applyOps ⟨[], []⟩ ops).compact.file.length ≤ (applyOps ⟨[], []⟩ ops).file.length ∧
    ((dupKeys (entriesOf ops) ∨ hasTomb (entriesOf ops)) →
      (applyOps ⟨[], []⟩ ops).compact.file.length <
        (applyOps ⟨[], []⟩ ops).file.length) ∧
    ((applyOps ⟨[], []⟩ ops).index = [] → (applyOps ⟨[], []⟩ ops).compact.file = []) := by
  have hE : ∀ en ∈ entriesOf ops, entryOk en := by
    intro x hx
    obtain ⟨op, hop, rfl⟩ := List.mem_map.mp hx
    exact hops op hop
  rw [applyOps_empty ops]
  obtain ⟨E2, hcomp, hok2, hlive2, hnd2, hval2, hkeys2, hsize2, hlog2⟩ :=
    compact_master (entriesOf ops) hE
  obtain ⟨hsle, hslt⟩ := replay_size (entriesOf ops) hE
  refine ⟨?_, ⟨E2, ?_, hnd2, ?_, ?_⟩, ?_, ?_, fun h => compact_file_empty _ h⟩
  · intro k
    rw [hcomp, get_engineOf E2 hok2 k, get_engineOf (entriesOf ops) hE k, hlog2 k]
  · rw [hcomp]
    rfl
  · intro en2 hen2
    obtain ⟨v, hv⟩ := hlive2 en2 hen2
    refine ⟨v, hv, ?_⟩
    rw [← hval2 en2 hen2]
    exact hv
  · intro k
    rw [hkeys2 k]
    constructor
    · intro hfind hlog
      cases hfd : idxFind (replayGo 0 [] (entriesOf ops)) k with
      | none => exact hfind hfd
      | some li =>
        obtain ⟨_, en, _, _, _, hval, ⟨v, hv⟩, _, _⟩ :=
          (replay_index_spec (entriesOf ops) hE k).2 li hfd
        rw [hval, hlog] at hv
        exact absurd hv (by simp)
    · intro hlog hfind
      exact hlog ((replay_index_spec (entriesOf ops) hE k).1 hfind)
  · rw [hcomp]
    unfold engineOf
    dsimp only
    rw [hsize2]
    exact hsle
  · intro hcond
    rw [hcomp]
    unfold engineOf
    dsimp only
    rw [hsize2]
    exact hslt hcond

theorem spec_compaction_witness :
    (∀ op ∈ ([Op.set 0 [1] [2], Op.set 1 [1] [3], Op.del 0 [4],
        Op.set 2 [5] [6]] : List Op), opOk op) ∧
    ((∀ k, (applyOps ⟨[], []⟩ [Op.set 0 [1] [2], Op.set 1 [1] [3], Op.del 0 [4],
        Op.set 2 [5] [6]]).compact.get k =
      (applyOps ⟨[], []⟩ [Op.set 0 [1] [2], Op.set 1 [1] [3], Op.del 0 [4],
        Op.set 2 [5] [6]]).get k) ∧
    (∃ E2, (applyOps ⟨[], []⟩ [Op.set 0 [1] [2], Op.set 1 [1] [3], Op.del 0 [4],
        Op.set 2 [5] [6]]).compact.file = logOf E2 ∧
      (E2.map DataFileEntry.key).Nodup ∧
      (∀ en ∈ E2, ∃ v, en.value = some v ∧
        logical en.key (entriesOf [Op.set 0 [1] [2], Op.set 1 [1] [3], Op.del 0 [4],
          Op.set 2 [5] [6]]) = some v) ∧
      (∀ k, k ∈ E2.map DataFileEntry.key ↔
        ¬logical k (entriesOf [Op.set 0 [1] [2], Op.set 1 [1] [3], Op.del 0 [4],
          Op.set 2 [5] [6]]) = none)) ∧
    (applyOps ⟨[], []⟩ [Op.set 0 [1] [2], Op.set 1 [1] [3], Op.del 0 [4],
        Op.set 2 [5] [6]]).compact.file.length ≤
      (applyOps ⟨[], []⟩ [Op.set 0 [1] [2], Op.set 1 [1] [3], Op.del 0 [4],
        Op.set 2 [5] [6]]).file.length ∧
    ((dupKeys (entriesOf [Op.set 0 [1] [2], Op.set 1 [1] [3], Op.del 0 [4],
        Op.set 2 [5] [6]]) ∨
      hasTomb (entriesOf [Op.set 0 [1] [2], Op.set 1 [1] [3], Op.del 0 [4],
        Op.set 2 [5] [6]])) →
      (applyOps ⟨[], []⟩ [Op.set 0 [1] [2], Op.set 1 [1] [3], Op.del 0 [4],
        Op.set 2 [5] [6]]).compact.file.length <
      (applyOps ⟨[], []⟩ [Op.set 0 [1] [2], Op.set 1 [1] [3], Op.del 0 [4],
        Op.set 2 [5] [6]]).file.length) ∧
    ((applyOps ⟨[], []⟩ [Op.set 0 [1] [2], Op.set 1 [1] [3], Op.del 0 [4],
        Op.set 2 [5] [6]]).index = [] →
      (applyOps ⟨[], []⟩ [Op.set 0 [1] [2], Op.set 1 [1] [3], Op.del 0 [4],
        Op.set 2 [5] [6]]).compact.file = [])) :=
  ⟨by decide, spec_compaction [Op.set 0 [1] [2], Op.set 1 [1] [3], Op.del 0 [4],
    Op.set 2 [5] [6]] (by decide)⟩

/-- C4: on the spec-modelled thresholded engine (the source has neither a
threshold parameter nor any compaction): a `set` that brings cumulative
appended bytes since open or since the last compaction up to the
threshold compacts synchronously before returning and resets the
counter, while a `set` below the threshold only appends; auto-compaction
never changes any observable `get` result; and repeatedly setting one key
keeps the file length bounded by one maximal frame plus the threshold. -/
theorem spec_auto_compaction :
    (∀ (s : EngineT) (t : Int) (k v : Bytes),
      (s.threshold ≤ s.since + (8 + (encodeEntry ⟨t, k, some v⟩).length) →
        s.set t k v = ⟨(s.eng.set t k v).compact, s.threshold, 0⟩) ∧
      (¬s.threshold ≤ s.since + (8 + (encodeEntry ⟨t, k, some v⟩).length) →
        s.set t k v =
          ⟨s.eng.set t k v, s.threshold,
            s.since + (8 + (encodeEntry ⟨t, k, some v⟩).length)⟩)) ∧
    (∀ (thr : Nat) (ops : List Op), (∀ op ∈ ops, opOk op) →
      ∀ k, (applyOpsT ⟨⟨[], []⟩, thr, 0⟩ ops).get k =
        IOResult.ok (logical k (entriesOf ops))) ∧
    (∀ (k : Bytes) (thr B : Nat) (vs : List (Int × Bytes)),
      1 ≤ thr → 25 + k.length + B < 2 ^ 64 →
      (∀ tv ∈ vs, (tv.2 : Bytes).length ≤ B) →
      (vs.foldl (fun (s : EngineT) tv => s.set tv.1 k tv.2) (⟨⟨[], []⟩, thr, 0⟩ : EngineT)).eng.file.length ≤
        33 + k.length + B + thr) := by
  refine ⟨?_, ?_, ?_⟩
  · intro s t k v
    constructor
    · intro h
      unfold EngineT.set
      rw [if_pos h]
    · intro h
      unfold EngineT.set
      rw [if_neg h]
  · intro thr ops hops k
    obtain ⟨E2, heng, hok2, hlog⟩ :=
      applyOpsT_go ops ⟨⟨[], []⟩, thr, 0⟩ [] hops (by simp) rfl
    unfold EngineT.get
    rw [heng, get_engineOf E2 hok2 k, hlog k]
    rfl
  · intro k thr B vs hthr hkB hvs
    obtain ⟨E2, _, _, hsince, _, hfile⟩ :=
      boundT_invariant k thr B hthr hkB vs ⟨⟨[], []⟩, thr, 0⟩ []
        hvs rfl rfl (by dsimp only; omega) (by simp) (by simp [engineOf, logOf])
    omega

theorem spec_auto_compaction_witness :
    ((⟨⟨[], []⟩, 10, 0⟩ : EngineT).threshold ≤
      (⟨⟨[], []⟩, 10, 0⟩ : EngineT).since +
        (8 + (encodeEntry ⟨0, [1], some [2]⟩).length) ∧
     (⟨⟨[], []⟩, 10, 0⟩ : EngineT).set 0 [1] [2] =
      ⟨((⟨⟨[], []⟩, 10, 0⟩ : EngineT).eng.set 0 [1] [2]).compact, 10, 0⟩) ∧
    ((∀ op ∈ ([Op.set 0 [1] [2], Op.set 1 [1] [3]] : List Op), opOk op) ∧
     (applyOpsT ⟨⟨[], []⟩, 10, 0⟩ [Op.set 0 [1] [2], Op.set 1 [1] [3]]).get [1] =
      IOResult.ok (logical [1] (entriesOf [Op.set 0 [1] [2], Op.set 1 [1] [3]]))) ∧
    (1 ≤ 10 ∧ 25 + List.length [1] + 1 < 2 ^ 64 ∧
     (([((0 : Int), [2]), ((1 : Int), [3]), ((2 : Int), [4])] :
        List (Int × Bytes)).foldl (fun (s : EngineT) tv => s.set tv.1 [1] tv.2)
        (⟨⟨[], []⟩, 10, 0⟩ : EngineT)).eng.file.length ≤ 33 + List.length [1] + 1 + 10) :=
  ⟨⟨by decide, (spec_auto_compaction.1 ⟨⟨[], []⟩, 10, 0⟩ 0 [1] [2]).1 (by decide)⟩,
   ⟨by decide, spec_auto_compaction.2.1 10 [Op.set 0 [1] [2], Op.set 1 [1] [3]]
     (by decide) [1]⟩,
   ⟨by decide, by decide, spec_auto_compaction.2.2 [1] 10 1
     [((0 : Int), [2]), ((1 : Int), [3]), ((2 : Int), [4])]
     (by decide) (by decide) (by decide)⟩⟩

theorem rebuildGo_trunc (fuel : Nat) (rest : Bytes) (pos : Nat) (ix : Index)
    (hfe : 1 ≤ fuel) (h8 : ¬rest.length < 8)
    (htr : (rest.drop 8).length < fromLEBytes (rest.take 8)) :
    rebuildGo fuel rest pos ix = .err .unexpectedEof := by
  obtain ⟨f, rfl⟩ := Nat.exists_eq_add_of_le hfe
  rw [Nat.add_comm 1 f]
  show rebuildGo (f + 1) rest pos ix = _
  simp only [rebuildGo]
  rw [if_neg h8, if_pos htr]

/-- C8 as stated is false on the code.  A length prefix declaring zero
further bytes followed by end-of-file is not a clean terminator: the
empty payload fails to decode and `load` errors with `InvalidData`.  And
a truncated payload is reported with the ordinary short-read I/O error,
`UnexpectedEof` — exactly the same error an unrelated failed positioned
read in `get` produces — not a distinct `TruncationError`. -/
theorem spec_truncation_counterexample :
    Engine.load (toLEBytes 8 0) = IOResult.err IOErrorKind.invalidData ∧
    Engine.load (toLEBytes 8 5 ++ [1, 2]) = IOResult.err IOErrorKind.unexpectedEof ∧
    (Engine.mk [] [([0], ⟨0, 5⟩)]).get [0] = IOResult.err IOErrorKind.unexpectedEof := by
  refine ⟨?_, ?_, ?_⟩ <;> decide

/-- C8 (amended): end-of-file exactly at a frame boundary — fewer than 8
bytes where the next length prefix would begin — is a clean terminator of
replay; a length prefix followed by fewer payload bytes than it declares
fails loudly rather than being silently dropped, but with the ordinary
I/O error kind `UnexpectedEof` (the propagated `read_exact` failure, not
a distinct `TruncationError` type), which is distinguishable from the
decode-failure kind `InvalidData`. -/
theorem spec_truncation_amended (E : List DataFileEntry)
    (hok : ∀ en ∈ E, entryOk en) (L : Nat) (hL : L < 2 ^ 64)
    (part : Bytes) (hpart : part.length < L) :
    Engine.load (logOf E) = IOResult.ok (engineOf E) ∧
    Engine.load (logOf E ++ (toLEBytes 8 L ++ part)) =
      IOResult.err IOErrorKind.unexpectedEof ∧
    IOErrorKind.unexpectedEof ≠ IOErrorKind.invalidData := by
  refine ⟨load_logOf E hok, ?_, by decide⟩
  unfold Engine.load
  rw [rebuildGo_logOf E (toLEBytes 8 L ++ part) 0 []
    (logOf E ++ (toLEBytes 8 L ++ part)).length hok (le_refl _)]
  have ht : (toLEBytes 8 L ++ part).take 8 = toLEBytes 8 L := by
    have h := List.take_left (toLEBytes 8 L) part
    rwa [length_toLEBytes] at h
  have hd : (toLEBytes 8 L ++ part).drop 8 = part := by
    have h := List.drop_left (toLEBytes 8 L) part
    rwa [length_toLEBytes] at h
  rw [rebuildGo_trunc _ _ _ _ ?_ ?_ ?_]
  · simp only [List.length_append, length_toLEBytes]
    omega
  · simp only [List.length_append, length_toLEBytes]
    omega
  · rw [ht, hd, fromLE_toLE_8 L hL]
    exact hpart

theorem spec_truncation_amended_witness :
    ((∀ en ∈ ([⟨0, [1], some [2]⟩] : List DataFileEntry), entryOk en) ∧
     (5 : Nat) < 2 ^ 64 ∧ ([9, 9] : Bytes).length < 5) ∧
    Engine.load (logOf [⟨0, [1], some [2]⟩]) =
      IOResult.ok (engineOf [⟨0, [1], some [2]⟩]) ∧
    Engine.load (logOf [⟨0, [1], some [2]⟩] ++ (toLEBytes 8 5 ++ [9, 9])) =
      IOResult.err IOErrorKind.unexpectedEof ∧
    IOErrorKind.unexpectedEof ≠ IOErrorKind.invalidData :=
  ⟨⟨by decide, by decide, by decide⟩,
   spec_truncation_amended [⟨0, [1], some [2]⟩] (by decide) 5 (by decide) [9, 9]
     (by decide)⟩

/-- C9: the modelled `wincode` codec (an external crate, modelled from
spec section 4.1) is symmetric — decoding an encoding returns exactly the
record, for any representable timestamp, any key bytes and an absent,
empty or arbitrary value; decoding succeeds only on exact encoder
outputs, so any byte sequence that is not one fails; and a sequence
shorter than its embedded key-length or value-length field declares
fails.  In the engine these failures surface as `InvalidData`, distinct
from I/O errors. -/
theorem spec_codec_roundtrip :
    (∀ r : DataFileEntry, entryOk r → -(2 ^ 63) ≤ r.tstamp → r.tstamp < 2 ^ 63 →
      decodeEntry (encodeEntry r) = some r) ∧
    (∀ b : Bytes, (∀ x ∈ b, x < 256) → ∀ r, decodeEntry b = some r →
      encodeEntry r = b) ∧
    (∀ b : Bytes, (∀ x ∈ b, x < 256) → (∀ r, encodeEntry r ≠ b) →
      decodeEntry b = none) ∧
    (∀ tsb klb rest2 : Bytes, tsb.length = 8 → klb.length = 8 →
      rest2.length < fromLEBytes klb → decodeEntry (tsb ++ (klb ++ rest2)) = none) ∧
    (∀ tsb klb key vlb v2 : Bytes, tsb.length = 8 → klb.length = 8 →
      key.length = fromLEBytes klb → vlb.length = 8 →
      v2.length < fromLEBytes vlb →
      decodeEntry (tsb ++ (klb ++ (key ++ (1 :: (vlb ++ v2))))) = none) := by
  refine ⟨?_, ?_, ?_, ?_, ?_⟩
  · intro r h h1 h2
    rw [decodeEntry_encodeEntry r h, normTs_eq_self h1 h2]
  · intro b hb r hdec
    exact encodeEntry_decodeEntry hb hdec
  · intro b hb hnot
    cases hdec : decodeEntry b with
    | none => rfl
    | some r => exact absurd (encodeEntry_decodeEntry hb hdec) (hnot r)
  · intro tsb klb rest2 h1 h2 hlt
    have h1e := splitBytes_append_of_length 8 tsb (klb ++ rest2) h1
    have h2e := splitBytes_append_of_length 8 klb rest2 h2
    have h3e : splitBytes (fromLEBytes klb) rest2 = none := by
      unfold splitBytes
      rw [if_neg (by omega)]
    simp only [decodeEntry, h1e, h2e, h3e]
  · intro tsb klb key vlb v2 h1 h2 hkey h4 hlt
    have h1e := splitBytes_append_of_length 8 tsb
      (klb ++ (key ++ (1 :: (vlb ++ v2)))) h1
    have h2e := splitBytes_append_of_length 8 klb (key ++ (1 :: (vlb ++ v2))) h2
    have h3e := splitBytes_append_of_length (fromLEBytes klb) key
      (1 :: (vlb ++ v2)) hkey
    have h4e := splitBytes_append_of_length 8 vlb v2 h4
    simp only [decodeEntry, h1e, h2e, h3e, h4e]
    rw [if_neg (by omega)]

theorem spec_codec_roundtrip_witness :
    (entryOk ⟨-7, [], some [0, 255]⟩ ∧ -(2 ^ 63) ≤ (-7 : Int) ∧ (-7 : Int) < 2 ^ 63) ∧
    decodeEntry (encodeEntry ⟨-7, [], some [0, 255]⟩) = some ⟨-7, [], some [0, 255]⟩ ∧
    decodeEntry (encodeEntry ⟨0, [1], none⟩) = some ⟨0, [1], none⟩ ∧
    decodeEntry (toLEBytes 8 0 ++ (toLEBytes 8 9 ++ [1, 2])) = none ∧
    decodeEntry (toLEBytes 8 0 ++ (toLEBytes 8 1 ++ ([5] ++ (1 :: (toLEBytes 8 4 ++ [6]))))) =
      none :=
  ⟨⟨by decide, by decide, by decide⟩,
   spec_codec_roundtrip.1 ⟨-7, [], some [0, 255]⟩ (by decide) (by decide) (by decide),
   spec_codec_roundtrip.1 ⟨0, [1], none⟩ (by decide) (by decide) (by decide),
   spec_codec_roundtrip.2.2.2.1 (toLEBytes 8 0) (toLEBytes 8 9) [1, 2]
     (by decide) (by decide) (by decide),
   spec_codec_roundtrip.2.2.2.2 (toLEBytes 8 0) (toLEBytes 8 1) [5] (toLEBytes 8 4) [6]
     (by decide) (by decide) (by decide) (by decide) (by decide)⟩

/-- C10: a trailing length prefix that is itself incomplete — the file
ends with between 1 and 7 bytes where an 8-byte prefix should be — is
silently treated as a clean end of log: `load` succeeds with the index
the complete frames produce, no error is reported for the partial
bytes, and every `get` behaves as if they were not there. -/
theorem spec_partial_prefix_clean (E : List DataFileEntry) (junk : Bytes)
    (hok : ∀ en ∈ E, entryOk en) (h1 : 1 ≤ junk.length) (h7 : junk.length ≤ 7) :
    Engine.load (logOf E ++ junk) =
      IOResult.ok ⟨logOf E ++ junk, (engineOf E).index⟩ ∧
    (∀ k, (Engine.mk (logOf E ++ junk) (engineOf E).index).get k =
      (engineOf E).get k) := by
  constructor
  · exact load_logOf_junk E junk hok (by omega)
  · intro k
    have hspec := replay_index_spec E hok k
    unfold Engine.get engineOf
    dsimp only
    cases hfind : idxFind (replayGo 0 [] E) k with
    | none => rfl
    | some li =>
      obtain ⟨hb, en, hdec, henc, hkey, hval, hlive, hlen, hok2⟩ := hspec.2 li hfind
      dsimp only
      have hble : li.pos + li.len ≤ (logOf E ++ junk).length := by
        simp only [List.length_append]
        omega
      rw [if_neg (by omega), if_neg (by omega)]
      rw [slice_append _ _ li hb]

theorem spec_partial_prefix_clean_witness :
    ((∀ en ∈ ([⟨0, [1], some [2]⟩] : List DataFileEntry), entryOk en) ∧
     1 ≤ ([255, 0, 7] : Bytes).length ∧ ([255, 0, 7] : Bytes).length ≤ 7) ∧
    Engine.load (logOf [⟨0, [1], some [2]⟩] ++ [255, 0, 7]) =
      IOResult.ok ⟨logOf [⟨0, [1], some [2]⟩] ++ [255, 0, 7],
        (engineOf [⟨0, [1], some [2]⟩]).index⟩ ∧
    (Engine.mk (logOf [⟨0, [1], some [2]⟩] ++ [255, 0, 7])
        (engineOf [⟨0, [1], some [2]⟩]).index).get [1] =
      (engineOf [⟨0, [1], some [2]⟩]).get [1] :=
  ⟨⟨by decide, by decide, by decide⟩,
   (spec_partial_prefix_clean [⟨0, [1], some [2]⟩] [255, 0, 7] (by decide)
     (by decide) (by decide)).1,
   (spec_partial_prefix_clean [⟨0, [1], some [2]⟩] [255, 0, 7] (by decide)
     (by decide) (by decide)).2 [1]⟩

end KVStore
